import Mathlib

/-!
Verification of the GraphRx repository: a shallow embedding of
`src/graphinvent/gnn/summation_mpnn.py` (the `SummationMPNN` abstract module
and its `forward` pass) and `src/tools/data/MOSES/count_molecules.py`.

Tensors are modelled as nested lists of integers (the value domain stands in
for the float entries; every structural claim below is about which entries go
where, not about float rounding).  Fallible tensor operations (out-of-bounds
index assignment, shape-mismatched copies, `max` of an empty tensor,
`torch.zeros` with a negative size) are modelled with `Option`.
-/

set_option autoImplicit false
set_option linter.unusedVariables false

/-- A feature vector: one tensor row. -/
abbrev Vec := List Int

/-- A batch of node feature matrices, shape (batch, nodes, node features). -/
abbrev Nodes := List (List Vec)

/-- A batch of edge feature tensors, shape (batch, nodes, nodes, edge features). -/
abbrev Edges := List (List (List Vec))

/-- Sum of the entries of a vector (`torch.sum` over the last dimension). -/
def vsum (v : Vec) : Int := v.foldl (· + ·) 0

/-- The derived adjacency, `torch.sum(edges, dim=3)`: collapse the edge-feature axis. -/
def adjacency (edges : Edges) : List (List (List Int)) :=
  edges.map (fun m => m.map (fun p => p.map vsum))

/-- Per-node sums of the adjacency rows, `adjacency.sum(-1)`. -/
def rowSum (a : List (List (List Int))) : List (List Int) :=
  a.map (fun m => m.map vsum)

/-- Indices of the nonzero entries of a vector, ascending, starting at `i`
(the last axis of `torch.nonzero`). -/
def nzIdx : Nat → List Int → List Nat
  | _, [] => []
  | i, x :: xs => if x = 0 then nzIdx (i + 1) xs else i :: nzIdx (i + 1) xs

/-- Row-major nonzero positions of a matrix, batch index starting at `b`. -/
def nonzero2Aux : Nat → List (List Int) → List (Nat × Nat)
  | _, [] => []
  | b, r :: rs => (nzIdx 0 r).map (fun v => (b, v)) ++ nonzero2Aux (b + 1) rs

/-- Nonzero positions `t.nonzero(as_tuple=True)` of a 2-D tensor, as the list
of index pairs in row-major order. -/
def nonzero2 (a : List (List Int)) : List (Nat × Nat) :=
  nonzero2Aux 0 a

/-- Row-major nonzero positions of a 3-D tensor, batch index starting at `b`. -/
def nonzero3Aux : Nat → List (List (List Int)) → List (Nat × Nat × Nat)
  | _, [] => []
  | b, m :: ms => (nonzero2 m).map (fun p => (b, p.1, p.2)) ++ nonzero3Aux (b + 1) ms

/-- Nonzero positions `t.nonzero(as_tuple=True)` of a 3-D tensor, as the list
of index triples in row-major order. -/
def nonzero3 (a : List (List (List Int))) : List (Nat × Nat × Nat) :=
  nonzero3Aux 0 a

/-- Maximum `t.max()` of a flattened tensor; meaningful only on a nonempty list
(`torch.max` raises on an empty tensor, which the callers guard). -/
def listMax : List Int → Int
  | [] => 0
  | x :: xs => xs.foldl max x

/-- The `constants` namedtuple fields read by `SummationMPNN.__init__`. -/
structure Constants where
  hidden_node_features : Nat
  n_edge_features : Nat
  message_size : Nat
  message_passes : Nat
deriving DecidableEq, Repr

/-- The attributes `SummationMPNN.__init__` stores on the module. -/
structure MPNNModule where
  hidden_node_features : Nat
  edge_features : Nat
  message_size : Nat
  message_passes : Nat
  constants : Constants
deriving DecidableEq, Repr

/-- Constructor `SummationMPNN.__init__`: copy the relevant constants onto the module. -/
def SummationMPNN.init (constants : Constants) : MPNNModule :=
  { hidden_node_features := constants.hidden_node_features
    edge_features := constants.n_edge_features
    message_size := constants.message_size
    message_passes := constants.message_passes
    constants := constants }

/-- Python exceptions the two source files can raise. -/
inductive PyError where
  | notImplementedError
  | fileNotFoundError
  | oserror (code : Nat)
deriving DecidableEq, Repr

/-- Abstract hook `SummationMPNN.message_terms`; its body is
`raise NotImplementedError`. -/
def SummationMPNN.message_terms (nodes : List Vec) (node_neighbours : List (List Vec))
    (edges : List (List Vec)) : Except PyError (List (List Vec)) :=
  .error .notImplementedError

/-- Abstract hook `SummationMPNN.update`; its body is `raise NotImplementedError`. -/
def SummationMPNN.update (nodes : List Vec) (messages : List Vec) :
    Except PyError (List Vec) :=
  .error .notImplementedError

/-- Abstract hook `SummationMPNN.readout`; its body is `raise NotImplementedError`. -/
def SummationMPNN.readout (hidden_nodes : Nodes) (input_nodes : Nodes)
    (node_mask : List (List Bool)) : Except PyError Nodes :=
  .error .notImplementedError

/-- Tensor-slice assignment `dst_row[:] = src`: succeeds elementwise when the
lengths agree, broadcasts a length-1 source, and raises otherwise. -/
def copyRow (dst : Vec) (src : Vec) : Option Vec :=
  if src.length = dst.length then some src
  else if src.length = 1 then some (List.replicate dst.length (src.headD 0))
  else none

/-- Slot write `buf[j, :] = src`: bounds-checked write into a buffer of rows. -/
def writeSlot (buf : List Vec) (j : Nat) (src : Vec) : Option (List Vec) :=
  if j < buf.length then
    match copyRow (buf.getD j []) src with
    | some v => some (buf.set j v)
    | none => none
  else none

/-- Scalar write `mask_row[j] = 1`, bounds-checked. -/
def writeMask (mrow : List Int) (j : Nat) : Option (List Int) :=
  if j < mrow.length then some (mrow.set j 1) else none

/-- The inner loop `for j, nghb_id in enumerate(neighbors_idc)` of
`SummationMPNN.forward`: write the neighbour's node features, the connecting
edge's features and the mask bit into slot `j`, then continue with `j + 1`. -/
def fillSlots (nodes : Nodes) (edges : Edges) (batch_id node_id : Nat) :
    Nat → List Nat → List Vec × List Vec × List Int →
    Option (List Vec × List Vec × List Int)
  | _, [], buf => some buf
  | j, nghb_id :: rest, (nr, er, mr) => do
    let nr' ← writeSlot nr j ((nodes.getD batch_id []).getD nghb_id [])
    let er' ← writeSlot er j (((edges.getD batch_id []).getD node_id []).getD nghb_id [])
    let mr' ← writeMask mr j
    fillSlots nodes edges batch_id node_id (j + 1) rest (nr', er', mr')

/-- One iteration of the mapping loop of `SummationMPNN.forward`: select the
neighbour indices of the `i`-th node of the node batch from the edge-batch
index triples, and fill that node's rows of the three buffers. -/
def buildRow (H E maxdeg : Nat) (nodes : Nodes) (edges : Edges)
    (triples : List (Nat × Nat × Nat)) (bv : Nat × Nat) :
    Option (List Vec × List Vec × List Int) :=
  let neighbors_idc :=
    (triples.filter (fun t => t.1 == bv.1 && t.2.1 == bv.2)).map (fun t => t.2.2)
  fillSlots nodes edges bv.1 bv.2 0 neighbors_idc
    (List.replicate maxdeg (List.replicate H (0 : Int)),
     List.replicate maxdeg (List.replicate E (0 : Int)),
     List.replicate maxdeg (0 : Int))

/-- An `Option`-valued `mapM`, written recursively so proofs can follow it. -/
def optMapM {α β : Type} (f : α → Option β) : List α → Option (List β)
  | [] => some []
  | a :: as => do
    let b ← f a
    let bs ← optMapM f as
    some (b :: bs)

/-- The neighbour-indexed form `SummationMPNN.forward` builds (lines 100-123):
the selected `(batch, node)` pairs and the three per-node buffers. -/
structure NodeBatch where
  selected : List (Nat × Nat)
  nghbs : List (List Vec)
  edgesB : List (List Vec)
  mask : List (List Int)
deriving DecidableEq, Repr

/-- Lines 100-123 of `SummationMPNN.forward`: derive the adjacency, pick the
edge-batch triples and the node-batch pairs, compute `max_node_degree` as the
maximum of the flattened adjacency row sums (`.max()` raises on an empty
tensor and `torch.zeros` on a negative size, both modelled as `none`), then
run the mapping loop over the node batch. -/
def buildNodeBatch (H E : Nat) (nodes : Nodes) (edges : Edges) : Option NodeBatch :=
  let adj := adjacency edges
  let triples := nonzero3 adj
  let selected := nonzero2 (rowSum adj)
  let node_degrees := (rowSum adj).flatten
  if node_degrees.isEmpty then none
  else if listMax node_degrees < 0 then none
  else
    match optMapM (buildRow H E (listMax node_degrees).toNat nodes edges triples)
        selected with
    | some rows =>
      some { selected := selected
             nghbs := rows.map (fun r => r.1)
             edgesB := rows.map (fun r => r.2.1)
             mask := rows.map (fun r => r.2.2) }
    | none => none

/-- Row assignment `hidden_nodes[:, :n, :] = nodes` after
`hidden_nodes = zeros_like(nodes)`, row index counted from `v`. -/
def padRows (n : Nat) : Nat → List Vec → List Vec
  | _, [] => []
  | v, r :: rs => (if v < n then r else r.map (fun _ => (0 : Int))) :: padRows n (v + 1) rs

/-- Lines 126-127 of `SummationMPNN.forward`: allocate `zeros_like(nodes)` and
assign `nodes` into its first `nodes.shape[1]` rows. -/
def padHidden (nodes : Nodes) : Nodes :=
  nodes.map (fun m => padRows (nodes.headD []).length 0 m)

/-- Fancy-index read `hidden[batch_idc, node_idc, :]`. -/
def gatherRows (hidden : Nodes) (selected : List (Nat × Nat)) : List Vec :=
  selected.map (fun bv => (hidden.getD bv.1 []).getD bv.2 [])

/-- Fancy-index write `hidden[batch_idc, node_idc, :] = vals` (the index pairs
are distinct, so the simultaneous write equals the sequential one). -/
def scatterRows : Nodes → List (Nat × Nat) → List Vec → Nodes
  | hidden, _, [] => hidden
  | hidden, [], _ => hidden
  | hidden, bv :: selected, w :: vals =>
    scatterRows (hidden.set bv.1 ((hidden.getD bv.1 []).set bv.2 w)) selected vals

/-- Type of a subclass's `message_terms` implementation. -/
abbrev MsgTerms := List Vec → List (List Vec) → List (List Vec) → List (List Vec)

/-- Type of a subclass's `update` implementation. -/
abbrev UpdateFn := List Vec → List Vec → List Vec

/-- Type of a subclass's `readout` implementation. -/
abbrev ReadoutFn (γ : Type) := Nodes → Nodes → List (List Bool) → γ

/-- Scalar multiple `c * v` of a vector. -/
def scaleVec (c : Int) (v : Vec) : Vec := v.map (fun x => c * x)

/-- Elementwise vector addition. -/
def vecAdd (a b : Vec) : Vec := List.zipWith (· + ·) a b

/-- Mask-weighted sum of one node's message terms over the neighbour axis,
starting from a zero message of width `M`. -/
def maskedSum (M : Nat) (terms_i : List Vec) (mask_i : List Int) : Vec :=
  ((terms_i.zip mask_i).map (fun p => scaleVec p.2 p.1)).foldl vecAdd
    (List.replicate M (0 : Int))

/-- Modelled from the spec: `forward` calls `self.aggregate_message`, whose
definition is not among the source files; per the spec the class defines the
batched message-passing contract through the `message_terms` hook, so the
per-round message computation evaluates `message_terms` on the gathered node
rows and the neighbour and edge buffers and sums the resulting terms over the
neighbour dimension under the given mask (the summation the class is named
for). -/
def aggregate_message (M : Nat) (mt : MsgTerms) (nodes : List Vec)
    (node_neighbours : List (List Vec)) (edges : List (List Vec))
    (mask : List (List Int)) : List Vec :=
  let terms := mt nodes node_neighbours edges
  (terms.zip mask).map (fun p => maskedSum M p.1 p.2)

/-- One message-passing round of `SummationMPNN.forward` (lines 129-134):
gather the hidden rows of the node batch, aggregate the messages, and write
`update`'s result back at the node-batch positions. -/
def mpStep (M : Nat) (mt : MsgTerms) (upd : UpdateFn) (nb : NodeBatch)
    (hidden : Nodes) : Nodes :=
  let g := gatherRows hidden nb.selected
  let messages := aggregate_message M mt g nb.nghbs nb.edgesB nb.mask
  scatterRows hidden nb.selected (upd g messages)

/-- The loop `for _ in range(k)` around `mpStep`. -/
def mpLoop (M : Nat) (mt : MsgTerms) (upd : UpdateFn) (nb : NodeBatch) :
    Nat → Nodes → Nodes
  | 0, hidden => hidden
  | k + 1, hidden => mpLoop M mt upd nb k (mpStep M mt upd nb hidden)

/-- Line 136, `node_mask = (adjacency.sum(-1) != 0)`. -/
def nodeMask (edges : Edges) : List (List Bool) :=
  (rowSum (adjacency edges)).map (fun r => r.map (fun x => decide (x ≠ 0)))

/-- The forward pass `SummationMPNN.forward`, parameterised over a subclass's `message_terms`,
`update` and `readout` implementations: build the neighbour-indexed form, pad
the hidden states, run `message_passes` rounds, and hand the result, the input
nodes and the node mask to the single `readout` call. -/
def SummationMPNN.forward {γ : Type} (m : MPNNModule) (mt : MsgTerms)
    (upd : UpdateFn) (rd : ReadoutFn γ) (nodes : Nodes) (edges : Edges) :
    Option γ :=
  match buildNodeBatch m.hidden_node_features m.edge_features nodes edges with
  | none => none
  | some nb =>
    let hidden := mpLoop m.message_size mt upd nb m.message_passes (padHidden nodes)
    some (rd hidden nodes (nodeMask edges))

/-- State-passing variant of `SummationMPNN.forward`:
the body assigns no attribute of `self`, so the state component is returned as
received. -/
def SummationMPNN.forwardS {γ : Type} (m : MPNNModule) (mt : MsgTerms)
    (upd : UpdateFn) (rd : ReadoutFn γ) (nodes : Nodes) (edges : Edges) :
    Option γ × MPNNModule :=
  (SummationMPNN.forward m mt upd rd nodes edges, m)

/-- Outcome of opening a path, the filesystem seen by the counting script. -/
inductive FileOutcome where
  | notFound
  | ioError (code : Nat)
  | content (text : String)
deriving DecidableEq, Repr

/-- A filesystem: what opening each path yields. -/
abbrev FileSystem := String → FileOutcome

/-- A Python value the counting function can return: a string or an int. -/
inductive PyVal where
  | str (s : String)
  | int (n : Nat)
deriving DecidableEq, Repr

/-- The split `file.readlines()` performs on a character list: cut after every newline, keeping
the terminators, with a final unterminated line kept as well; `cur` holds the
current line read so far, reversed. -/
def readlinesAux (cur : List Char) : List Char → List (List Char)
  | [] => if cur.isEmpty then [] else [cur.reverse]
  | c :: cs =>
    if c = '\n' then (cur.reverse ++ [c]) :: readlinesAux [] cs
    else readlinesAux (c :: cur) cs

/-- Result of `file.readlines()` on the file's text. -/
def readlines (text : String) : List (List Char) :=
  readlinesAux [] text.toList

/-- Whether the text still has an unterminated final line after `cur`. -/
def endsOpen (cur : List Char) : List Char → Bool
  | [] => !cur.isEmpty
  | c :: cs => endsOpen (if c = '\n' then [] else c :: cur) cs

/-- The function `count_molecules_in_smi_file` from
`src/tools/data/MOSES/count_molecules.py`: return `len(file.readlines())` on
success, return the fixed message string when the path is not found, and let
any other error propagate (only `FileNotFoundError` is caught). -/
def count_molecules_in_smi_file (fs : FileSystem) (file_path : String) :
    Except PyError PyVal :=
  match fs file_path with
  | .notFound => .ok (.str "File not found. Please check the file path.")
  | .ioError e => .error (.oserror e)
  | .content text => .ok (.int (readlines text).length)

/-- State-passing variant of `count_molecules_in_smi_file`: the
file is opened in read mode and never written, so the filesystem component is
returned as received. -/
def count_molecules_run (fs : FileSystem) (file_path : String) :
    Except PyError PyVal × FileSystem :=
  (count_molecules_in_smi_file fs file_path, fs)

/-- The script's hard-coded input path. -/
def file_path : String := "train.smi"

/-- The quantity `max_node_degree` as `forward` computes it: the maximum of the flattened
adjacency row sums, taken to a `Nat` the way `torch.zeros` consumes it. -/
def maxNodeDegree (edges : Edges) : Nat :=
  (listMax ((rowSum (adjacency edges)).flatten)).toNat

/-- The ascending list of neighbour indices of node `v` of graph `b` under the
derived adjacency. -/
def nbrList (adj : List (List (List Int))) (b v : Nat) : List Nat :=
  nzIdx 0 ((adj.getD b []).getD v [])

/-- The input batch is rectangular with the stated dimensions: `nodes` is
`(B, N, F)` and `edges` is `(B, N, N, E)`. -/
@[reducible]
def RectInput (B N F E : Nat) (nodes : Nodes) (edges : Edges) : Prop :=
  nodes.length = B ∧ (∀ m ∈ nodes, m.length = N ∧ ∀ r ∈ m, r.length = F) ∧
    edges.length = B ∧ (∀ t ∈ edges, t.length = N ∧ ∀ p ∈ t, p.length = N ∧
      ∀ e ∈ p, e.length = E)

/-- Every edge-feature entry is nonnegative (true of the one-hot encodings the
model is fed, but not forced by the interface). -/
@[reducible]
def NonnegEdges (edges : Edges) : Prop :=
  ∀ t ∈ edges, ∀ p ∈ t, ∀ e ∈ p, ∀ x ∈ e, (0 : Int) ≤ x

/-- Three nodes with one-dimensional features, used by the counterexamples. -/
def cexNodes3 : Nodes := [[[5], [6], [7]]]

/-- Node 0 has neighbour 1 with edge-feature sum `2` and neighbour 2 with
edge-feature sum `-1`: its adjacency row sum is `1` but it has two
neighbours, and `max_node_degree` is `1`. -/
def cexEdgesNeg : Edges := [[[[0], [2], [-1]], [[0], [0], [0]], [[0], [0], [0]]]]

/-- Node 0's adjacency row is `[0, 1, -1]` (row sum `0`, two neighbours);
nodes 1 and 2 each have the single neighbour 0 with weight `1`. -/
def cexEdgesMixed : Edges := [[[[0], [1], [-1]], [[1], [0], [0]], [[1], [0], [0]]]]

/-- Node 0's adjacency row is `[0, 1, -1]` and no other edges exist, so no
node is selected although node 0 has two incident edges. -/
def cexEdgesCancel : Edges := [[[[0], [1], [-1]], [[0], [0], [0]], [[0], [0], [0]]]]

/-- A single node with a width-1 feature vector. -/
def cexNodesW1 : Nodes := [[[5]]]

/-- A single node with width-3 features, for the copy-mismatch theorem. -/
def cexNodesW3 : Nodes := [[[5, 6, 7]]]

/-- A self-loop on the single node, edge-feature width 1. -/
def cexEdges11 : Edges := [[[[1]]]]

/-- Two nodes joined in both directions, all features nonnegative. -/
def wNodes : Nodes := [[[3], [4]]]

/-- The edges of the two-node witness graph. -/
def wEdges : Edges := [[[[0], [1]], [[1], [0]]]]

/-- A `message_terms` implementation that returns the neighbour features. -/
def mtNghb : MsgTerms := fun _ node_neighbours _ => node_neighbours

/-- An `update` implementation that shifts every feature by one, so an
unreplaced hidden row is visible. -/
def updShift : UpdateFn := fun nodes _ => nodes.map (fun r => r.map (fun x => x + 1))

/-- A `readout` implementation that returns the hidden states. -/
def rdHidden : ReadoutFn Nodes := fun hidden_nodes _ _ => hidden_nodes

/-- A `readout` implementation that returns the node mask it is handed. -/
def rdMask : ReadoutFn (List (List Bool)) := fun _ _ node_mask => node_mask

/-- A filesystem on which every path is missing. -/
def fsMissing : FileSystem := fun _ => .notFound

/-- A filesystem with a two-molecule `train.smi`. -/
def fsTrain : FileSystem :=
  fun p => if p = "train.smi" then .content "CCO\nCCN\n" else .notFound

/-- A filesystem where opening any path raises a non-`FileNotFoundError`. -/
def fsBroken : FileSystem := fun _ => .ioError 13

/-- The neighbour-indexed form of the two-node witness graph. -/
def wNB : NodeBatch :=
  { selected := [(0, 0), (0, 1)], nghbs := [[[4]], [[3]]],
    edgesB := [[[1]], [[1]]], mask := [[1], [1]] }

/-! ### List helpers -/

theorem listGetD_set_self {α : Type} (l : List α) (n : Nat) (a d : α)
    (h : n < l.length) : (l.set n a).getD n d = a := by
  induction l generalizing n with
  | nil => simp at h
  | cons x xs ih =>
    cases n with
    | zero => rfl
    | succ k => simpa [List.set] using ih k (by simpa using h)

theorem listGetD_set_ne {α : Type} (l : List α) (m n : Nat) (a d : α)
    (h : m ≠ n) : (l.set n a).getD m d = l.getD m d := by
  induction l generalizing m n with
  | nil => rfl
  | cons x xs ih =>
    cases n with
    | zero =>
      cases m with
      | zero => exact absurd rfl h
      | succ k => rfl
    | succ k =>
      cases m with
      | zero => rfl
      | succ j =>
        simpa [List.set] using ih j k (fun hh => h (by rw [hh]))

theorem listGetD_replicate {α : Type} (n i : Nat) (a d : α) (h : i < n) :
    (List.replicate n a).getD i d = a := by
  induction n generalizing i with
  | zero => omega
  | succ k ih =>
    cases i with
    | zero => rfl
    | succ j => simpa [List.replicate] using ih j (by omega)

theorem listGetD_mem {α : Type} (l : List α) (i : Nat) (d : α)
    (h : i < l.length) : l.getD i d ∈ l := by
  induction l generalizing i with
  | nil => simp at h
  | cons x xs ih =>
    cases i with
    | zero => simp
    | succ j => exact List.mem_cons_of_mem _ (ih j (by simpa using h))

theorem listGetD_map {α β : Type} (f : α → β) (l : List α) (i : Nat)
    (da : α) (db : β) (h : i < l.length) :
    (l.map f).getD i db = f (l.getD i da) := by
  induction l generalizing i with
  | nil => simp at h
  | cons x xs ih =>
    cases i with
    | zero => rfl
    | succ j => simpa using ih j (by simpa using h)

theorem foldl_add_shift (l : List Int) (a : Int) :
    l.foldl (· + ·) a = a + l.foldl (· + ·) 0 := by
  induction l generalizing a with
  | nil => simp
  | cons x xs ih =>
    simp only [List.foldl_cons]
    rw [ih (a + x), ih (0 + x)]
    ring

theorem vsum_cons (x : Int) (xs : List Int) : vsum (x :: xs) = x + vsum xs := by
  show (x :: xs).foldl (· + ·) 0 = x + vsum xs
  simp only [List.foldl_cons]
  rw [foldl_add_shift]
  simp [vsum]

theorem vsum_nonneg (l : List Int) (h : ∀ x ∈ l, 0 ≤ x) : 0 ≤ vsum l := by
  induction l with
  | nil => simp [vsum]
  | cons x xs ih =>
    rw [vsum_cons]
    have hx := h x (by simp)
    have := ih (fun y hy => h y (by simp [hy]))
    omega

theorem mem_le_vsum (l : List Int) (x : Int) (hx : x ∈ l)
    (h : ∀ y ∈ l, 0 ≤ y) : x ≤ vsum l := by
  induction l with
  | nil => simp at hx
  | cons z zs ih =>
    rw [vsum_cons]
    rcases List.mem_cons.mp hx with hz | hz
    · have := vsum_nonneg zs (fun y hy => h y (by simp [hy]))
      omega
    · have hz0 := h z (by simp)
      have := ih hz (fun y hy => h y (by simp [hy]))
      omega

theorem vsum_eq_zero (l : List Int) (h : ∀ x ∈ l, x = 0) : vsum l = 0 := by
  induction l with
  | nil => simp [vsum]
  | cons x xs ih =>
    rw [vsum_cons, h x (by simp), ih (fun y hy => h y (by simp [hy]))]
    simp

/-! ### Lemmas about `nzIdx` -/

theorem nzIdx_ge (l : List Int) : ∀ (i v : Nat), v ∈ nzIdx i l → i ≤ v := by
  induction l with
  | nil => intro i v h; simp [nzIdx] at h
  | cons x xs ih =>
    intro i v h
    by_cases hx : x = 0
    · simp only [nzIdx, if_pos hx] at h
      exact Nat.le_of_succ_le (ih (i + 1) v h)
    · simp only [nzIdx, if_neg hx, List.mem_cons] at h
      rcases h with h | h
      · omega
      · exact Nat.le_of_succ_le (ih (i + 1) v h)

theorem nzIdx_mem (l : List Int) : ∀ (i k : Nat),
    (i + k) ∈ nzIdx i l ↔ (k < l.length ∧ l.getD k 0 ≠ 0) := by
  induction l with
  | nil => intro i k; simp [nzIdx]
  | cons x xs ih =>
    intro i k
    by_cases hx : x = 0
    · cases k with
      | zero =>
        simp only [nzIdx, if_pos hx]
        constructor
        · intro h
          have := nzIdx_ge xs (i + 1) (i + 0) h
          omega
        · intro h
          exact absurd hx h.2
      | succ j =>
        simp only [nzIdx, if_pos hx]
        have : i + (j + 1) = (i + 1) + j := by omega
        rw [this, ih (i + 1) j]
        simp
    · cases k with
      | zero =>
        simp only [nzIdx, if_neg hx, List.mem_cons]
        constructor
        · intro _; exact ⟨by simp, by simpa using hx⟩
        · intro _; left; omega
      | succ j =>
        simp only [nzIdx, if_neg hx, List.mem_cons]
        have h1 : i + (j + 1) = (i + 1) + j := by omega
        constructor
        · intro h
          rcases h with h | h
          · omega
          · rw [h1] at h
            have := (ih (i + 1) j).mp h
            simpa using this
        · intro h
          right
          rw [h1]
          exact (ih (i + 1) j).mpr (by simpa using h)

theorem nzIdx_mem_zero (l : List Int) (v : Nat) :
    v ∈ nzIdx 0 l ↔ (v < l.length ∧ l.getD v 0 ≠ 0) := by
  have := nzIdx_mem l 0 v
  simpa using this

theorem nzIdx_pairwise (l : List Int) : ∀ i, List.Pairwise (· < ·) (nzIdx i l) := by
  induction l with
  | nil => intro i; simp [nzIdx]
  | cons x xs ih =>
    intro i
    by_cases hx : x = 0
    · simpa only [nzIdx, if_pos hx] using ih (i + 1)
    · simp only [nzIdx, if_neg hx, List.pairwise_cons]
      exact ⟨fun v hv => lt_of_lt_of_le (Nat.lt_succ_self i) (nzIdx_ge xs (i + 1) v hv),
        ih (i + 1)⟩

theorem nzIdx_nodup (l : List Int) (i : Nat) : (nzIdx i l).Nodup :=
  (nzIdx_pairwise l i).imp (fun h => Nat.ne_of_lt h)

theorem nzIdx_eq_nil (l : List Int) : ∀ i, nzIdx i l = [] ↔ ∀ x ∈ l, x = 0 := by
  induction l with
  | nil => intro i; simp [nzIdx]
  | cons x xs ih =>
    intro i
    by_cases hx : x = 0
    · simp only [nzIdx, if_pos hx]
      rw [ih (i + 1)]
      constructor
      · intro h y hy
        rcases List.mem_cons.mp hy with h' | h'
        · rw [h', hx]
        · exact h y h'
      · intro h y hy; exact h y (by simp [hy])
    · simp only [nzIdx, if_neg hx]
      constructor
      · intro h; exact absurd h (by simp)
      · intro h; exact absurd (h x (by simp)) hx

theorem nzIdx_length_le_vsum (l : List Int) (h : ∀ x ∈ l, 0 ≤ x) :
    ∀ i, ((nzIdx i l).length : Int) ≤ vsum l := by
  induction l with
  | nil => intro i; simp [nzIdx, vsum]
  | cons x xs ih =>
    intro i
    have hx0 : 0 ≤ x := h x (by simp)
    have hxs : ∀ y ∈ xs, 0 ≤ y := fun y hy => h y (by simp [hy])
    by_cases hx : x = 0
    · rw [vsum_cons, hx]
      simpa only [nzIdx, if_pos hx, zero_add] using ih hxs (i + 1)
    · have h1 : (1 : Int) ≤ x := by omega
      rw [vsum_cons]
      simp only [nzIdx, if_neg hx, List.length_cons]
      have := ih hxs (i + 1)
      push_cast
      omega

/-! ### Lemmas about `listMax` -/

theorem le_foldl_max (l : List Int) : ∀ (a : Int),
    a ≤ l.foldl max a ∧ ∀ x ∈ l, x ≤ l.foldl max a := by
  induction l with
  | nil => intro a; simp
  | cons y ys ih =>
    intro a
    refine ⟨le_trans (le_max_left a y) (ih (max a y)).1, ?_⟩
    intro x hx
    rcases List.mem_cons.mp hx with h | h
    · rw [h]; exact le_trans (le_max_right a y) (ih (max a y)).1
    · exact (ih (max a y)).2 x h

theorem le_listMax (l : List Int) (x : Int) (h : x ∈ l) : x ≤ listMax l := by
  cases l with
  | nil => simp at h
  | cons y ys =>
    show x ≤ ys.foldl max y
    rcases List.mem_cons.mp h with h' | h'
    · rw [h']; exact (le_foldl_max ys y).1
    · exact (le_foldl_max ys y).2 x h'

/-! ### Lemmas about `nonzero2` and `nonzero3` -/

theorem nonzero2Aux_ge (rows : List (List Int)) : ∀ (b0 : Nat) (p : Nat × Nat),
    p ∈ nonzero2Aux b0 rows → b0 ≤ p.1 := by
  induction rows with
  | nil => intro b0 p h; simp [nonzero2Aux] at h
  | cons r rs ih =>
    intro b0 p h
    rcases List.mem_append.mp h with h | h
    · rcases List.mem_map.mp h with ⟨v, _, hv⟩
      rw [← hv]
    · exact Nat.le_of_succ_le (ih (b0 + 1) p h)

theorem nonzero2Aux_mem (rows : List (List Int)) : ∀ (b0 d v : Nat),
    (b0 + d, v) ∈ nonzero2Aux b0 rows ↔
      (d < rows.length ∧ v ∈ nzIdx 0 (rows.getD d [])) := by
  induction rows with
  | nil => intro b0 d v; simp [nonzero2Aux, nzIdx]
  | cons r rs ih =>
    intro b0 d v
    rw [show nonzero2Aux b0 (r :: rs)
        = (nzIdx 0 r).map (fun w => (b0, w)) ++ nonzero2Aux (b0 + 1) rs from rfl,
      List.mem_append]
    cases d with
    | zero =>
      constructor
      · intro h
        rcases h with h | h
        · rcases List.mem_map.mp h with ⟨w, hw, hweq⟩
          have hwv : w = v := congrArg Prod.snd hweq
          rw [← hwv]
          exact ⟨by simp, hw⟩
        · have h2 : b0 + 1 ≤ b0 + 0 := nonzero2Aux_ge rs (b0 + 1) _ h
          omega
      · intro h
        left
        exact List.mem_map.mpr ⟨v, h.2, by simp⟩
    | succ j =>
      have hb : b0 + (j + 1) = (b0 + 1) + j := by omega
      constructor
      · intro h
        rcases h with h | h
        · rcases List.mem_map.mp h with ⟨w, _, hweq⟩
          have : b0 = b0 + (j + 1) := congrArg Prod.fst hweq
          omega
        · rw [hb] at h
          have := (ih (b0 + 1) j v).mp h
          simpa using this
      · intro hv
        right
        rw [hb]
        exact (ih (b0 + 1) j v).mpr (by simpa using hv)

theorem nonzero2_mem (a : List (List Int)) (b v : Nat) :
    (b, v) ∈ nonzero2 a ↔ (b < a.length ∧ v ∈ nzIdx 0 (a.getD b [])) := by
  have := nonzero2Aux_mem a 0 b v
  simpa using this

theorem nonzero2Aux_nodup (rows : List (List Int)) :
    ∀ (b0 : Nat), (nonzero2Aux b0 rows).Nodup := by
  induction rows with
  | nil => intro b0; simp [nonzero2Aux]
  | cons r rs ih =>
    intro b0
    rw [show nonzero2Aux b0 (r :: rs)
        = (nzIdx 0 r).map (fun w => (b0, w)) ++ nonzero2Aux (b0 + 1) rs from rfl,
      List.nodup_append]
    refine ⟨(nzIdx_nodup r 0).map ?_, ih (b0 + 1), ?_⟩
    · intro x y hxy
      exact congrArg Prod.snd hxy
    · rw [List.disjoint_left]
      intro p hp hp'
      rcases List.mem_map.mp hp with ⟨w, _, hweq⟩
      have h1 : p.1 = b0 := by rw [← hweq]
      have h2 := nonzero2Aux_ge rs (b0 + 1) p hp'
      omega

theorem nonzero2_nodup (a : List (List Int)) : (nonzero2 a).Nodup :=
  nonzero2Aux_nodup a 0

theorem nonzero3Aux_ge (ms : List (List (List Int))) :
    ∀ (b0 : Nat) (t : Nat × Nat × Nat), t ∈ nonzero3Aux b0 ms → b0 ≤ t.1 := by
  induction ms with
  | nil => intro b0 t h; simp [nonzero3Aux] at h
  | cons m ms ih =>
    intro b0 t h
    rcases List.mem_append.mp h with h | h
    · rcases List.mem_map.mp h with ⟨p, _, hp⟩
      rw [← hp]
    · exact Nat.le_of_succ_le (ih (b0 + 1) t h)

theorem nonzero3Aux_filter (ms : List (List (List Int))) : ∀ (b0 d v : Nat),
    (nonzero3Aux b0 ms).filter (fun t => t.1 == b0 + d && t.2.1 == v)
      = ((nonzero2 (ms.getD d [])).filter (fun p => p.1 == v)).map
          (fun p => (b0 + d, p.1, p.2)) := by
  induction ms with
  | nil => intro b0 d v; simp [nonzero3Aux, nonzero2, nonzero2Aux]
  | cons m ms ih =>
    intro b0 d v
    rw [show nonzero3Aux b0 (m :: ms)
        = (nonzero2 m).map (fun p => (b0, p.1, p.2)) ++ nonzero3Aux (b0 + 1) ms from rfl,
      List.filter_append, List.filter_map]
    cases d with
    | zero =>
      have hrest : (nonzero3Aux (b0 + 1) ms).filter
          (fun t => t.1 == b0 + 0 && t.2.1 == v) = [] := by
        rw [List.filter_eq_nil_iff]
        intro t ht
        have hge := nonzero3Aux_ge ms (b0 + 1) t ht
        have hne : (t.1 == b0 + 0) = false := by
          rw [beq_eq_false_iff_ne]
          omega
        rw [hne]
        simp
      rw [hrest, List.append_nil]
      have hpred : (nonzero2 m).filter ((fun t : Nat × Nat × Nat =>
            t.1 == b0 + 0 && t.2.1 == v) ∘ (fun p : Nat × Nat => (b0, p.1, p.2)))
          = (nonzero2 m).filter (fun p => p.1 == v) := by
        apply List.filter_congr
        intro p _
        have h0 : (b0 == b0 + 0) = true := by simp
        simp only [Function.comp_apply, h0, Bool.true_and]
      rw [hpred]
      simp
    | succ j =>
      have hblock : (nonzero2 m).filter ((fun t : Nat × Nat × Nat =>
            t.1 == b0 + (j + 1) && t.2.1 == v) ∘ (fun p : Nat × Nat => (b0, p.1, p.2)))
          = [] := by
        rw [List.filter_eq_nil_iff]
        intro p _
        have hne : (b0 == b0 + (j + 1)) = false := by
          rw [beq_eq_false_iff_ne]
          omega
        rw [Function.comp_apply, hne]
        simp
      rw [hblock]
      simp only [List.map_nil, List.nil_append]
      have hb : b0 + (j + 1) = (b0 + 1) + j := by omega
      rw [hb, List.getD_cons_succ]
      exact ih (b0 + 1) j v

theorem nonzero2Aux_filter (rs : List (List Int)) : ∀ (v0 d : Nat),
    ((nonzero2Aux v0 rs).filter (fun p => p.1 == v0 + d)).map (fun p => p.2)
      = nzIdx 0 (rs.getD d []) := by
  induction rs with
  | nil => intro v0 d; simp [nonzero2Aux, nzIdx]
  | cons r rs ih =>
    intro v0 d
    rw [show nonzero2Aux v0 (r :: rs)
        = (nzIdx 0 r).map (fun w => (v0, w)) ++ nonzero2Aux (v0 + 1) rs from rfl,
      List.filter_append, List.filter_map, List.map_append]
    cases d with
    | zero =>
      have hrest : (nonzero2Aux (v0 + 1) rs).filter (fun p => p.1 == v0 + 0) = [] := by
        rw [List.filter_eq_nil_iff]
        intro p hp
        have := nonzero2Aux_ge rs (v0 + 1) p hp
        have hne : (p.1 == v0 + 0) = false := by
          rw [beq_eq_false_iff_ne]
          omega
        rw [hne]
        simp
      rw [hrest]
      have hpred : (nzIdx 0 r).filter ((fun p : Nat × Nat => p.1 == v0 + 0) ∘
          (fun w => (v0, w))) = nzIdx 0 r := by
        rw [List.filter_eq_self]
        intro w _
        simp only [Function.comp_apply]
        simp
      rw [hpred]
      simp [List.map_map, Function.comp]
    | succ j =>
      have hblock : (nzIdx 0 r).filter ((fun p : Nat × Nat => p.1 == v0 + (j + 1)) ∘
          (fun w => (v0, w))) = [] := by
        rw [List.filter_eq_nil_iff]
        intro w _
        rw [Function.comp_apply]
        simp only [beq_iff_eq]
        omega
      rw [hblock]
      simp only [List.map_nil, List.nil_append]
      have hb : v0 + (j + 1) = (v0 + 1) + j := by omega
      rw [hb, List.getD_cons_succ]
      exact ih (v0 + 1) j

theorem nonzero3_filter_nbrList (a : List (List (List Int))) (b v : Nat) :
    ((nonzero3 a).filter (fun t => t.1 == b && t.2.1 == v)).map (fun t => t.2.2)
      = nbrList a b v := by
  have h1 := nonzero3Aux_filter a 0 b v
  simp only [Nat.zero_add] at h1
  rw [show nonzero3 a = nonzero3Aux 0 a from rfl, h1, List.map_map]
  have h2 := nonzero2Aux_filter (a.getD b []) 0 v
  simp only [Nat.zero_add] at h2
  rw [show ((fun t : Nat × Nat × Nat => t.2.2) ∘ (fun p : Nat × Nat => (b, p.1, p.2)))
      = (fun p : Nat × Nat => p.2) from rfl]
  exact h2

/-! ### Lemmas about the buffer writes -/

theorem copyRow_eq_len (dst src : Vec) (h : src.length = dst.length) :
    copyRow dst src = some src := by
  unfold copyRow
  rw [if_pos h]

theorem writeSlot_eq (buf : List Vec) (j : Nat) (src : Vec) (hj : j < buf.length)
    (hlen : src.length = (buf.getD j []).length) :
    writeSlot buf j src = some (buf.set j src) := by
  unfold writeSlot
  rw [if_pos hj, copyRow_eq_len _ _ hlen]

theorem writeMask_eq (mrow : List Int) (j : Nat) (hj : j < mrow.length) :
    writeMask mrow j = some (mrow.set j 1) := by
  unfold writeMask
  rw [if_pos hj]

theorem fillSlots_cons (nodes : Nodes) (edges : Edges) (bId nId j w : Nat)
    (rest : List Nat) (nr er : List Vec) (mr : List Int) :
    fillSlots nodes edges bId nId j (w :: rest) (nr, er, mr)
      = (writeSlot nr j ((nodes.getD bId []).getD w [])).bind (fun nr' =>
          (writeSlot er j (((edges.getD bId []).getD nId []).getD w [])).bind (fun er' =>
            (writeMask mr j).bind (fun mr' =>
              fillSlots nodes edges bId nId (j + 1) rest (nr', er', mr')))) := rfl

theorem fillSlots_sound (nodes : Nodes) (edges : Edges) (bId nId : Nat)
    (ws : List Nat) : ∀ (j : Nat) (nr er : List Vec) (mr : List Int),
    j + ws.length ≤ nr.length →
    er.length = nr.length →
    mr.length = nr.length →
    (∀ k, k < ws.length →
      ((nodes.getD bId []).getD (ws.getD k 0) []).length = (nr.getD (j + k) []).length) →
    (∀ k, k < ws.length →
      (((edges.getD bId []).getD nId []).getD (ws.getD k 0) []).length
        = (er.getD (j + k) []).length) →
    ∃ nr' er' mr',
      fillSlots nodes edges bId nId j ws (nr, er, mr) = some (nr', er', mr') ∧
      nr'.length = nr.length ∧ er'.length = er.length ∧ mr'.length = mr.length ∧
      (∀ p, (p < j ∨ j + ws.length ≤ p) →
        nr'.getD p [] = nr.getD p [] ∧ er'.getD p [] = er.getD p [] ∧
        mr'.getD p 0 = mr.getD p 0) ∧
      (∀ k, k < ws.length →
        nr'.getD (j + k) [] = (nodes.getD bId []).getD (ws.getD k 0) [] ∧
        er'.getD (j + k) [] = ((edges.getD bId []).getD nId []).getD (ws.getD k 0) [] ∧
        mr'.getD (j + k) 0 = 1) := by
  induction ws with
  | nil =>
    intro j nr er mr h1 h2 h3 h4 h5
    exact ⟨nr, er, mr, rfl, rfl, rfl, rfl, fun p _ => ⟨rfl, rfl, rfl⟩,
      fun k hk => absurd hk (by simp)⟩
  | cons w rest ih =>
    intro j nr er mr h1 h2 h3 h4 h5
    have hlen1 : j + (rest.length + 1) ≤ nr.length := by simpa using h1
    have hj : j < nr.length := by omega
    have hje : j < er.length := by omega
    have hjm : j < mr.length := by omega
    have hsrc : ((nodes.getD bId []).getD w []).length = (nr.getD j []).length := by
      have := h4 0 (by simp)
      simpa using this
    have hesrc : (((edges.getD bId []).getD nId []).getD w []).length
        = (er.getD j []).length := by
      have := h5 0 (by simp)
      simpa using this
    set nsrc := (nodes.getD bId []).getD w [] with hnsrc
    set esrc := ((edges.getD bId []).getD nId []).getD w [] with hesrcdef
    have hstep : fillSlots nodes edges bId nId j (w :: rest) (nr, er, mr)
        = fillSlots nodes edges bId nId (j + 1) rest
            (nr.set j nsrc, er.set j esrc, mr.set j 1) := by
      rw [fillSlots_cons, writeSlot_eq nr j nsrc hj hsrc,
        writeSlot_eq er j esrc hje hesrc, writeMask_eq mr j hjm]
      simp
    have h1' : (j + 1) + rest.length ≤ (nr.set j nsrc).length := by
      rw [List.length_set]; omega
    have h2' : (er.set j esrc).length = (nr.set j nsrc).length := by
      rw [List.length_set, List.length_set]; omega
    have h3' : (mr.set j 1).length = (nr.set j nsrc).length := by
      rw [List.length_set, List.length_set]; omega
    have h4' : ∀ k, k < rest.length →
        ((nodes.getD bId []).getD (rest.getD k 0) []).length
          = ((nr.set j nsrc).getD ((j + 1) + k) []).length := by
      intro k hk
      rw [listGetD_set_ne nr ((j + 1) + k) j nsrc [] (by omega)]
      have := h4 (k + 1) (by simp; omega)
      rw [List.getD_cons_succ] at this
      rw [show (j + 1) + k = j + (k + 1) from by omega]
      exact this
    have h5' : ∀ k, k < rest.length →
        (((edges.getD bId []).getD nId []).getD (rest.getD k 0) []).length
          = ((er.set j esrc).getD ((j + 1) + k) []).length := by
      intro k hk
      rw [listGetD_set_ne er ((j + 1) + k) j esrc [] (by omega)]
      have := h5 (k + 1) (by simp; omega)
      rw [List.getD_cons_succ] at this
      rw [show (j + 1) + k = j + (k + 1) from by omega]
      exact this
    obtain ⟨nr', er', mr', heq, hl1, hl2, hl3, hout, hin⟩ :=
      ih (j + 1) (nr.set j nsrc) (er.set j esrc) (mr.set j 1) h1' h2' h3' h4' h5'
    refine ⟨nr', er', mr', by rw [hstep]; exact heq, ?_, ?_, ?_, ?_, ?_⟩
    · rw [hl1, List.length_set]
    · rw [hl2, List.length_set]
    · rw [hl3, List.length_set]
    · intro p hp
      have hp' : p < j + 1 ∨ (j + 1) + rest.length ≤ p := by
        rcases hp with hp | hp
        · left; omega
        · right; simp at hp; omega
      have hp2 : p ≠ j := by
        rcases hp with hp | hp
        · omega
        · simp at hp; omega
      obtain ⟨e1, e2, e3⟩ := hout p hp'
      exact ⟨by rw [e1, listGetD_set_ne nr p j nsrc [] hp2],
        by rw [e2, listGetD_set_ne er p j esrc [] hp2],
        by rw [e3, listGetD_set_ne mr p j 1 0 hp2]⟩
    · intro k hk
      cases k with
      | zero =>
        have hj0 : j + 0 = j := by omega
        obtain ⟨e1, e2, e3⟩ := hout j (by left; omega)
        rw [hj0]
        refine ⟨?_, ?_, ?_⟩
        · rw [e1, listGetD_set_self nr j nsrc [] hj, hnsrc]
          simp
        · rw [e2, listGetD_set_self er j esrc [] hje, hesrcdef]
          simp
        · rw [e3, listGetD_set_self mr j 1 0 hjm]
      | succ k' =>
        have hk' : k' < rest.length := by simp at hk; omega
        obtain ⟨e1, e2, e3⟩ := hin k' hk'
        have hidx : j + (k' + 1) = (j + 1) + k' := by omega
        rw [hidx, List.getD_cons_succ]
        exact ⟨e1, e2, e3⟩

theorem fillSlots_inv (nodes : Nodes) (edges : Edges) (bId nId : Nat)
    (ws : List Nat) : ∀ (j : Nat) (nr er : List Vec) (mr : List Int)
    (nr' er' : List Vec) (mr' : List Int),
    fillSlots nodes edges bId nId j ws (nr, er, mr) = some (nr', er', mr') →
    (ws = [] ∨ j + ws.length ≤ mr.length) ∧ mr'.length = mr.length ∧
    (∀ p, (p < j ∨ j + ws.length ≤ p) → mr'.getD p 0 = mr.getD p 0) ∧
    (∀ k, k < ws.length → mr'.getD (j + k) 0 = 1) := by
  induction ws with
  | nil =>
    intro j nr er mr nr' er' mr' h
    have h' : some ((nr, er, mr) : List Vec × List Vec × List Int)
        = some (nr', er', mr') := h
    injection h' with h'
    injection h' with h1 h'
    injection h' with h2 h3
    subst h3
    exact ⟨Or.inl rfl, rfl, fun p _ => rfl, fun k hk => absurd hk (by simp)⟩
  | cons w rest ih =>
    intro j nr er mr nr' er' mr' h
    rw [fillSlots_cons, Option.bind_eq_some] at h
    obtain ⟨nrx, hnrx, h⟩ := h
    rw [Option.bind_eq_some] at h
    obtain ⟨erx, herx, h⟩ := h
    rw [Option.bind_eq_some] at h
    obtain ⟨mrx, hmrx, h⟩ := h
    have hjm : j < mr.length := by
      by_contra hc
      unfold writeMask at hmrx
      rw [if_neg hc] at hmrx
      cases hmrx
    have hmrx' : mrx = mr.set j 1 := by
      unfold writeMask at hmrx
      rw [if_pos hjm] at hmrx
      injection hmrx with h'
      exact h'.symm
    subst hmrx'
    obtain ⟨hb, hlen, hout, hin⟩ := ih (j + 1) nrx erx (mr.set j 1) nr' er' mr' h
    have hlen2 : mr'.length = mr.length := by rw [hlen, List.length_set]
    have hbound : (w :: rest) = [] ∨ j + (w :: rest).length ≤ mr.length := by
      right
      rcases hb with hb | hb
      · subst hb; simp; omega
      · rw [List.length_set] at hb; simp; omega
    refine ⟨hbound, hlen2, ?_, ?_⟩
    · intro p hp
      have hp' : p < j + 1 ∨ (j + 1) + rest.length ≤ p := by
        rcases hp with hp | hp
        · left; omega
        · right; simp at hp; omega
      have hp2 : p ≠ j := by
        rcases hp with hp | hp
        · omega
        · simp at hp; omega
      rw [hout p hp', listGetD_set_ne mr p j 1 0 hp2]
    · intro k hk
      cases k with
      | zero =>
        rw [show j + 0 = j from rfl, hout j (Or.inl (by omega)),
          listGetD_set_self mr j 1 0 hjm]
      | succ kk =>
        rw [show j + (kk + 1) = (j + 1) + kk from by omega]
        exact hin kk (by simp at hk; omega)

/-! ### Lemmas about `optMapM` -/

theorem optMapM_cons {α β : Type} (f : α → Option β) (a : α) (as : List α) :
    optMapM f (a :: as)
      = (f a).bind (fun b => (optMapM f as).bind (fun bs => some (b :: bs))) := rfl

theorem optMapM_some {α β : Type} (f : α → Option β) :
    ∀ (l : List α), (∀ a ∈ l, (f a).isSome) →
    ∃ bs, optMapM f l = some bs ∧ bs.length = l.length ∧
      ∀ (i : Nat) (da : α) (db : β), i < l.length → f (l.getD i da) = some (bs.getD i db) := by
  intro l
  induction l with
  | nil =>
    intro h
    exact ⟨[], rfl, rfl, fun i da db hi => absurd hi (by simp)⟩
  | cons a as ih =>
    intro h
    obtain ⟨b, hb⟩ := Option.isSome_iff_exists.mp (h a (by simp))
    obtain ⟨bs, hbs, hlen, hidx⟩ := ih (fun x hx => h x (by simp [hx]))
    refine ⟨b :: bs, ?_, by simp [hlen], ?_⟩
    · rw [optMapM_cons, hb, Option.some_bind, hbs, Option.some_bind]
    · intro i da db hi
      cases i with
      | zero => simpa using hb
      | succ k =>
        simp only [List.getD_cons_succ]
        exact hidx k da db (by simp at hi; omega)

theorem optMapM_eq_some {α β : Type} (f : α → Option β) :
    ∀ (l : List α) (bs : List β), optMapM f l = some bs →
    bs.length = l.length ∧
      ∀ (i : Nat) (da : α) (db : β), i < l.length → f (l.getD i da) = some (bs.getD i db) := by
  intro l
  induction l with
  | nil =>
    intro bs h
    have h' : some ([] : List β) = some bs := h
    injection h' with h'
    subst h'
    exact ⟨rfl, fun i da db hi => absurd hi (by simp)⟩
  | cons a as ih =>
    intro bs h
    rw [optMapM_cons, Option.bind_eq_some] at h
    obtain ⟨b, hb, h⟩ := h
    rw [Option.bind_eq_some] at h
    obtain ⟨tbs, htbs, h⟩ := h
    injection h with h
    subst h
    obtain ⟨hlen, hidx⟩ := ih tbs htbs
    refine ⟨by simp [hlen], ?_⟩
    intro i da db hi
    cases i with
    | zero => simpa using hb
    | succ k =>
      simp only [List.getD_cons_succ]
      exact hidx k da db (by simp at hi; omega)

theorem optMapM_none_of_mem {α β : Type} (f : α → Option β) :
    ∀ (l : List α) (a : α), a ∈ l → f a = none → optMapM f l = none := by
  intro l
  induction l with
  | nil => intro a ha; intro _; simp at ha
  | cons x xs ih =>
    intro a ha hfa
    rw [optMapM_cons]
    rcases List.mem_cons.mp ha with h | h
    · rw [h] at hfa
      rw [hfa, Option.none_bind]
    · cases hfx : f x with
      | none => rw [Option.none_bind]
      | some b =>
        rw [Option.some_bind, ih a h hfa, Option.none_bind]

/-! ### Unfoldings of the batch construction -/

theorem buildNodeBatch_eq (H E : Nat) (nodes : Nodes) (edges : Edges) :
    buildNodeBatch H E nodes edges =
      if ((rowSum (adjacency edges)).flatten).isEmpty then none
      else if listMax ((rowSum (adjacency edges)).flatten) < 0 then none
      else
        match optMapM (buildRow H E (maxNodeDegree edges) nodes edges
            (nonzero3 (adjacency edges))) (nonzero2 (rowSum (adjacency edges))) with
        | some rows =>
          some { selected := nonzero2 (rowSum (adjacency edges))
                 nghbs := rows.map (fun r => r.1)
                 edgesB := rows.map (fun r => r.2.1)
                 mask := rows.map (fun r => r.2.2) }
        | none => none := rfl

theorem buildRow_eq (H E maxdeg : Nat) (nodes : Nodes) (edges : Edges)
    (triples : List (Nat × Nat × Nat)) (bv : Nat × Nat) :
    buildRow H E maxdeg nodes edges triples bv
      = fillSlots nodes edges bv.1 bv.2 0
          ((triples.filter (fun t => t.1 == bv.1 && t.2.1 == bv.2)).map (fun t => t.2.2))
          (List.replicate maxdeg (List.replicate H (0 : Int)),
           List.replicate maxdeg (List.replicate E (0 : Int)),
           List.replicate maxdeg (0 : Int)) := rfl

/-! ### Lemmas about `padHidden` -/

theorem padRows_eq_self (n : Nat) (m : List Vec) : ∀ (v0 : Nat),
    v0 + m.length ≤ n → padRows n v0 m = m := by
  induction m with
  | nil => intro v0 h; rfl
  | cons r rs ih =>
    intro v0 h
    simp only [List.length_cons] at h
    have hv : v0 < n := by omega
    show (if v0 < n then r else r.map (fun _ => (0 : Int))) :: padRows n (v0 + 1) rs
        = r :: rs
    rw [if_pos hv, ih (v0 + 1) (by omega)]

theorem padHidden_eq_self (nodes : Nodes)
    (hrect : ∀ m ∈ nodes, m.length = (nodes.headD []).length) :
    padHidden nodes = nodes := by
  unfold padHidden
  have h : ∀ m ∈ nodes, padRows (nodes.headD []).length 0 m = id m := by
    intro m hm
    exact padRows_eq_self _ m 0 (by rw [hrect m hm]; omega)
  rw [List.map_congr_left h, List.map_id]

/-! ### Lemmas about `scatterRows` -/

theorem listSet_oob {α : Type} (l : List α) : ∀ (n : Nat) (a : α),
    l.length ≤ n → l.set n a = l := by
  induction l with
  | nil => intro n a h; rfl
  | cons x xs ih =>
    intro n a h
    cases n with
    | zero => simp at h
    | succ k =>
      simp only [List.length_cons] at h
      show x :: xs.set k a = x :: xs
      rw [ih k a (by omega)]

theorem set_row_length (hidden : Nodes) (p : Nat × Nat) (w : Vec) (b : Nat) :
    ((hidden.set p.1 ((hidden.getD p.1 []).set p.2 w)).getD b []).length
      = (hidden.getD b []).length := by
  by_cases h1 : p.1 = b
  · subst h1
    by_cases hb : p.1 < hidden.length
    · rw [listGetD_set_self hidden p.1 _ [] hb, List.length_set]
    · rw [listSet_oob hidden p.1 _ (by omega)]
  · rw [listGetD_set_ne hidden b p.1 _ [] (fun hh => h1 hh.symm)]

theorem entry_set_other (hidden : Nodes) (b v : Nat) (p : Nat × Nat) (w : Vec)
    (hne : p ≠ (b, v)) :
    ((hidden.set p.1 ((hidden.getD p.1 []).set p.2 w)).getD b []).getD v []
      = ((hidden.getD b []).getD v []) := by
  by_cases h1 : p.1 = b
  · subst h1
    have h2 : p.2 ≠ v := by
      intro h2
      exact hne (by rw [← h2])
    by_cases hb : p.1 < hidden.length
    · rw [listGetD_set_self hidden p.1 _ [] hb,
        listGetD_set_ne _ v p.2 w [] (fun hh => h2 hh.symm)]
    · rw [listSet_oob hidden p.1 _ (by omega)]
  · rw [listGetD_set_ne hidden b p.1 _ [] (fun hh => h1 hh.symm)]

theorem scatterRows_len (sel : List (Nat × Nat)) : ∀ (hidden : Nodes) (vals : List Vec),
    (scatterRows hidden sel vals).length = hidden.length := by
  induction sel with
  | nil =>
    intro hidden vals
    cases vals with
    | nil => rfl
    | cons w ws => rfl
  | cons p ps ih =>
    intro hidden vals
    cases vals with
    | nil => rfl
    | cons w ws =>
      show (scatterRows (hidden.set p.1 ((hidden.getD p.1 []).set p.2 w)) ps ws).length
          = hidden.length
      rw [ih _ ws, List.length_set]

theorem scatterRows_row_len (sel : List (Nat × Nat)) :
    ∀ (hidden : Nodes) (vals : List Vec) (b : Nat),
    ((scatterRows hidden sel vals).getD b []).length = (hidden.getD b []).length := by
  induction sel with
  | nil =>
    intro hidden vals b
    cases vals with
    | nil => rfl
    | cons w ws => rfl
  | cons p ps ih =>
    intro hidden vals b
    cases vals with
    | nil => rfl
    | cons w ws =>
      show ((scatterRows (hidden.set p.1 ((hidden.getD p.1 []).set p.2 w)) ps ws).getD b []).length
          = (hidden.getD b []).length
      rw [ih _ ws b, set_row_length]

theorem scatterRows_not_mem (sel : List (Nat × Nat)) :
    ∀ (hidden : Nodes) (vals : List Vec) (b v : Nat),
    (∀ p ∈ sel, p ≠ (b, v)) →
    ((scatterRows hidden sel vals).getD b []).getD v []
      = (hidden.getD b []).getD v [] := by
  induction sel with
  | nil =>
    intro hidden vals b v h
    cases vals with
    | nil => rfl
    | cons w ws => rfl
  | cons p ps ih =>
    intro hidden vals b v h
    cases vals with
    | nil => rfl
    | cons w ws =>
      show ((scatterRows (hidden.set p.1 ((hidden.getD p.1 []).set p.2 w)) ps ws).getD b []).getD v []
          = (hidden.getD b []).getD v []
      rw [ih _ ws b v (fun q hq => h q (by simp [hq])),
        entry_set_other hidden b v p w (h p (by simp))]

theorem scatterRows_write (sel : List (Nat × Nat)) :
    ∀ (hidden : Nodes) (vals : List Vec) (i : Nat) (b v : Nat),
    sel.Nodup → i < sel.length → i < vals.length →
    sel.getD i (0, 0) = (b, v) → b < hidden.length →
    v < (hidden.getD b []).length →
    ((scatterRows hidden sel vals).getD b []).getD v [] = vals.getD i [] := by
  induction sel with
  | nil => intro hidden vals i b v hnd hi hiv hsel hb hv; simp at hi
  | cons p ps ih =>
    intro hidden vals i b v hnd hi hiv hsel hb hv
    cases vals with
    | nil => simp at hiv
    | cons w ws =>
      show ((scatterRows (hidden.set p.1 ((hidden.getD p.1 []).set p.2 w)) ps ws).getD b []).getD v []
          = (w :: ws).getD i []
      cases i with
      | zero =>
        have hp : p = (b, v) := by simpa using hsel
        have hnotin : ∀ q ∈ ps, q ≠ (b, v) := by
          intro q hq heq
          rw [heq, ← hp] at hq
          exact (List.nodup_cons.mp hnd).1 hq
        rw [scatterRows_not_mem ps _ ws b v hnotin, hp,
          listGetD_set_self hidden b _ [] hb, listGetD_set_self _ v w [] hv]
        rfl
      | succ k =>
        have hk : k < ps.length := by simp at hi; omega
        have hkv : k < ws.length := by simp at hiv; omega
        have hsel' : ps.getD k (0, 0) = (b, v) := by simpa using hsel
        have hmem : (b, v) ∈ ps := by
          rw [← hsel']
          exact listGetD_mem ps k (0, 0) hk
        have hpnb : p ≠ (b, v) := by
          intro heq
          rw [← heq] at hmem
          exact (List.nodup_cons.mp hnd).1 hmem
        have hb' : b < (hidden.set p.1 ((hidden.getD p.1 []).set p.2 w)).length := by
          rw [List.length_set]; omega
        have hv' : v < ((hidden.set p.1 ((hidden.getD p.1 []).set p.2 w)).getD b []).length := by
          rw [set_row_length]; omega
        rw [ih _ ws k b v (List.nodup_cons.mp hnd).2 hk hkv hsel' hb' hv']
        rfl

/-! ### The message-passing loop -/

theorem mpLoop_eq_iterate (M : Nat) (mt : MsgTerms) (upd : UpdateFn) (nb : NodeBatch) :
    ∀ (k : Nat) (hidden : Nodes),
    mpLoop M mt upd nb k hidden = (mpStep M mt upd nb)^[k] hidden := by
  intro k
  induction k with
  | zero => intro hidden; rfl
  | succ n ih =>
    intro hidden
    rw [show mpLoop M mt upd nb (n + 1) hidden
        = mpLoop M mt upd nb n (mpStep M mt upd nb hidden) from rfl,
      ih (mpStep M mt upd nb hidden), Function.iterate_succ_apply]

/-! ### Shape and access lemmas for `adjacency` and `rowSum` -/

theorem adjacency_length (edges : Edges) : (adjacency edges).length = edges.length := by
  unfold adjacency
  exact List.length_map _ _

theorem rowSum_length (a : List (List (List Int))) : (rowSum a).length = a.length := by
  unfold rowSum
  exact List.length_map _ _

theorem adjacency_getD (edges : Edges) (b : Nat) (hb : b < edges.length) :
    (adjacency edges).getD b [] = (edges.getD b []).map (fun p => p.map vsum) :=
  listGetD_map _ edges b [] [] hb

theorem adjacency_row_length (edges : Edges) (b : Nat) (hb : b < edges.length) :
    ((adjacency edges).getD b []).length = (edges.getD b []).length := by
  rw [adjacency_getD edges b hb]
  exact List.length_map _ _

theorem adjacency_row_getD (edges : Edges) (b v : Nat) (hb : b < edges.length)
    (hv : v < (edges.getD b []).length) :
    ((adjacency edges).getD b []).getD v [] = ((edges.getD b []).getD v []).map vsum := by
  rw [adjacency_getD edges b hb]
  exact listGetD_map _ _ v [] [] hv

theorem adjacency_entry_length (edges : Edges) (b v : Nat) (hb : b < edges.length)
    (hv : v < (edges.getD b []).length) :
    (((adjacency edges).getD b []).getD v []).length
      = ((edges.getD b []).getD v []).length := by
  rw [adjacency_row_getD edges b v hb hv]
  exact List.length_map _ _

theorem adjacency_entry (edges : Edges) (b v w : Nat) (hb : b < edges.length)
    (hv : v < (edges.getD b []).length) (hw : w < ((edges.getD b []).getD v []).length) :
    (((adjacency edges).getD b []).getD v []).getD w 0
      = vsum (((edges.getD b []).getD v []).getD w []) := by
  rw [adjacency_row_getD edges b v hb hv]
  exact listGetD_map vsum _ w [] 0 hw

theorem rowSum_getD (a : List (List (List Int))) (b : Nat) (hb : b < a.length) :
    (rowSum a).getD b [] = (a.getD b []).map vsum :=
  listGetD_map _ a b [] [] hb

theorem rowSum_row_length (a : List (List (List Int))) (b : Nat) (hb : b < a.length) :
    ((rowSum a).getD b []).length = (a.getD b []).length := by
  rw [rowSum_getD a b hb]
  exact List.length_map _ _

theorem rowSum_entry (a : List (List (List Int))) (b v : Nat) (hb : b < a.length)
    (hv : v < (a.getD b []).length) :
    ((rowSum a).getD b []).getD v 0 = vsum ((a.getD b []).getD v []) := by
  rw [rowSum_getD a b hb]
  exact listGetD_map vsum _ v [] 0 hv

/-! ### Accessors for `RectInput` and `NonnegEdges` -/

theorem rect_nodes_mat_len (B N F E : Nat) (nodes : Nodes) (edges : Edges)
    (h : RectInput B N F E nodes edges) (b : Nat) (hb : b < B) :
    (nodes.getD b []).length = N := by
  obtain ⟨h1, h2, h3, h4⟩ := h
  exact (h2 _ (listGetD_mem nodes b [] (by omega))).1

theorem rect_nodes_row_len (B N F E : Nat) (nodes : Nodes) (edges : Edges)
    (h : RectInput B N F E nodes edges) (b w : Nat) (hb : b < B) (hw : w < N) :
    ((nodes.getD b []).getD w []).length = F := by
  obtain ⟨h1, h2, h3, h4⟩ := h
  have hm := h2 _ (listGetD_mem nodes b [] (by omega))
  exact hm.2 _ (listGetD_mem _ w [] (by rw [hm.1]; omega))

theorem rect_edges_mat_len (B N F E : Nat) (nodes : Nodes) (edges : Edges)
    (h : RectInput B N F E nodes edges) (b : Nat) (hb : b < B) :
    (edges.getD b []).length = N := by
  obtain ⟨h1, h2, h3, h4⟩ := h
  exact (h4 _ (listGetD_mem edges b [] (by omega))).1

theorem rect_edges_row_count (B N F E : Nat) (nodes : Nodes) (edges : Edges)
    (h : RectInput B N F E nodes edges) (b v : Nat) (hb : b < B) (hv : v < N) :
    ((edges.getD b []).getD v []).length = N := by
  obtain ⟨h1, h2, h3, h4⟩ := h
  have hm := h4 _ (listGetD_mem edges b [] (by omega))
  exact (hm.2 _ (listGetD_mem _ v [] (by rw [hm.1]; omega))).1

theorem rect_edges_vec_len (B N F E : Nat) (nodes : Nodes) (edges : Edges)
    (h : RectInput B N F E nodes edges) (b v w : Nat) (hb : b < B) (hv : v < N)
    (hw : w < N) : (((edges.getD b []).getD v []).getD w []).length = E := by
  obtain ⟨h1, h2, h3, h4⟩ := h
  have hm := h4 _ (listGetD_mem edges b [] (by omega))
  have hp := hm.2 _ (listGetD_mem _ v [] (by rw [hm.1]; omega))
  exact hp.2 _ (listGetD_mem _ w [] (by rw [hp.1]; omega))

theorem nonneg_vec (edges : Edges) (h : NonnegEdges edges) (b v w : Nat)
    (hb : b < edges.length) (hv : v < (edges.getD b []).length)
    (hw : w < ((edges.getD b []).getD v []).length) :
    ∀ x ∈ ((edges.getD b []).getD v []).getD w [], (0 : Int) ≤ x := by
  intro x hx
  exact h _ (listGetD_mem edges b [] hb) _ (listGetD_mem _ v [] hv)
    _ (listGetD_mem _ w [] hw) x hx

/-! ### Vector arithmetic lemmas -/

theorem vecAdd_getD (a : Vec) : ∀ (b : Vec) (k : Nat), a.length = b.length →
    (vecAdd a b).getD k 0 = a.getD k 0 + b.getD k 0 := by
  induction a with
  | nil =>
    intro b k h
    cases b with
    | nil => simp [vecAdd]
    | cons y ys => simp at h
  | cons x xs ih =>
    intro b k h
    cases b with
    | nil => simp at h
    | cons y ys =>
      show (List.zipWith (· + ·) (x :: xs) (y :: ys)).getD k 0 = _
      rw [List.zipWith_cons_cons]
      cases k with
      | zero => rfl
      | succ j =>
        simp only [List.getD_cons_succ]
        exact ih ys j (by simpa using h)

theorem vecAdd_length (a b : Vec) (h : a.length = b.length) :
    (vecAdd a b).length = a.length := by
  unfold vecAdd
  rw [List.length_zipWith, h]
  exact min_self _

theorem scaleVec_length (c : Int) (v : Vec) : (scaleVec c v).length = v.length := by
  unfold scaleVec
  exact List.length_map _ _

theorem scaleVec_getD (c : Int) (v : Vec) (k : Nat) :
    (scaleVec c v).getD k 0 = c * v.getD k 0 := by
  by_cases hk : k < v.length
  · exact listGetD_map (fun x => c * x) v k 0 0 hk
  · rw [List.getD_eq_default _ _ (by rw [scaleVec_length]; omega),
      List.getD_eq_default _ _ (by omega)]
    ring

theorem foldl_vecAdd_getD : ∀ (l : List Vec) (acc : Vec),
    (∀ v ∈ l, v.length = acc.length) →
    (l.foldl vecAdd acc).length = acc.length ∧
    ∀ k, (l.foldl vecAdd acc).getD k 0
      = acc.getD k 0 + (l.map (fun v => v.getD k 0)).sum := by
  intro l
  induction l with
  | nil => intro acc h; exact ⟨rfl, fun k => by simp⟩
  | cons v vs ih =>
    intro acc h
    have hv : v.length = acc.length := h v (by simp)
    have hlen : (vecAdd acc v).length = acc.length := by
      rw [vecAdd_length acc v hv.symm]
    have h' : ∀ u ∈ vs, u.length = (vecAdd acc v).length := by
      intro u hu
      rw [hlen]
      exact h u (by simp [hu])
    obtain ⟨l1, l2⟩ := ih (vecAdd acc v) h'
    refine ⟨?_, fun k => ?_⟩
    · show (vs.foldl vecAdd (vecAdd acc v)).length = acc.length
      rw [l1, hlen]
    · rw [show (v :: vs).foldl vecAdd acc = vs.foldl vecAdd (vecAdd acc v) from rfl,
        l2 k, vecAdd_getD acc v k hv.symm]
      simp [add_assoc]

theorem zip_getD {α β : Type} (l : List α) : ∀ (l' : List β) (i : Nat) (d : α) (d' : β),
    i < l.length → i < l'.length →
    (l.zip l').getD i (d, d') = (l.getD i d, l'.getD i d') := by
  induction l with
  | nil => intro l' i d d' h h'; simp at h
  | cons x xs ih =>
    intro l' i d d' h h'
    cases l' with
    | nil => simp at h'
    | cons y ys =>
      cases i with
      | zero => rfl
      | succ j =>
        show (xs.zip ys).getD j (d, d') = _
        exact ih ys j d d' (by simpa using h) (by simpa using h')

theorem maskedSum_getD (M : Nat) (ti : List Vec) (mi : List Int)
    (h : ∀ v ∈ ti, v.length = M) (k : Nat) :
    (maskedSum M ti mi).getD k 0
      = ((ti.zip mi).map (fun p => p.2 * (p.1.getD k 0))).sum := by
  have hlen : ∀ v ∈ (ti.zip mi).map (fun p => scaleVec p.2 p.1),
      v.length = (List.replicate M (0 : Int)).length := by
    intro v hv
    rcases List.mem_map.mp hv with ⟨p, hp, hpe⟩
    rw [← hpe, scaleVec_length, List.length_replicate]
    exact h p.1 (List.of_mem_zip hp).1
  obtain ⟨l1, l2⟩ := foldl_vecAdd_getD _ _ hlen
  unfold maskedSum
  rw [l2 k]
  have hz : (List.replicate M (0 : Int)).getD k 0 = 0 := by
    by_cases hk : k < M
    · exact listGetD_replicate M k 0 0 hk
    · exact List.getD_eq_default _ _ (by rw [List.length_replicate]; omega)
  rw [hz, zero_add, List.map_map]
  congr 1
  apply List.map_congr_left
  intro p hp
  simp only [Function.comp_apply]
  exact scaleVec_getD p.2 p.1 k

theorem aggregate_message_getD (M : Nat) (mt : MsgTerms) (nodes : List Vec)
    (nn eB : List (List Vec)) (mask : List (List Int)) (i : Nat)
    (hi : i < (mt nodes nn eB).length) (hi' : i < mask.length) :
    (aggregate_message M mt nodes nn eB mask).getD i []
      = maskedSum M ((mt nodes nn eB).getD i []) (mask.getD i []) := by
  unfold aggregate_message
  have hzlen : i < ((mt nodes nn eB).zip mask).length := by
    rw [List.length_zip]
    omega
  rw [listGetD_map (fun p => maskedSum M p.1 p.2) _ i ([], []) [] hzlen,
    zip_getD _ mask i [] [] hi hi']

/-! ### Lemmas about `readlines` -/

theorem readlinesAux_length : ∀ (l cur : List Char),
    (readlinesAux cur l).length
      = l.count '\n' + (if endsOpen cur l then 1 else 0) := by
  intro l
  induction l with
  | nil =>
    intro cur
    show (if cur.isEmpty then ([] : List (List Char)) else [cur.reverse]).length
      = 0 + (if endsOpen cur [] then 1 else 0)
    by_cases hc : cur.isEmpty
    · rw [if_pos hc]
      show 0 = 0 + (if !cur.isEmpty then 1 else 0)
      rw [hc]
      rfl
    · rw [if_neg hc]
      show 1 = 0 + (if !cur.isEmpty then 1 else 0)
      have hcf : cur.isEmpty = false := by
        revert hc
        cases cur.isEmpty <;> simp
      rw [hcf]
      rfl
  | cons c cs ih =>
    intro cur
    by_cases hc : c = '\n'
    · show (if c = '\n' then (cur.reverse ++ [c]) :: readlinesAux [] cs
          else readlinesAux (c :: cur) cs).length = _
      rw [if_pos hc]
      have h2 : endsOpen cur (c :: cs) = endsOpen [] cs := by
        show endsOpen (if c = '\n' then [] else c :: cur) cs = _
        rw [if_pos hc]
      rw [h2]
      have h3 : (c :: cs).count '\n' = cs.count '\n' + 1 := by
        rw [List.count_cons]
        simp [hc]
      rw [h3, List.length_cons, ih []]
      omega
    · show (if c = '\n' then (cur.reverse ++ [c]) :: readlinesAux [] cs
          else readlinesAux (c :: cur) cs).length = _
      rw [if_neg hc]
      have h2 : endsOpen cur (c :: cs) = endsOpen (c :: cur) cs := by
        show endsOpen (if c = '\n' then [] else c :: cur) cs = _
        rw [if_neg hc]
      have h3 : (c :: cs).count '\n' = cs.count '\n' := by
        rw [List.count_cons]
        simp [hc]
      rw [h2, h3, ih (c :: cur)]

/-! ### Claim theorems: the counting script and the abstract hooks -/

/-- C4: each of the three abstract methods `message_terms`, `update` and
`readout`, called on the `SummationMPNN` base class with any arguments, raises
`NotImplementedError` rather than returning a value. -/
theorem summationMPNN_abstract_hooks_raise (nodes : List Vec)
    (node_neighbours : List (List Vec)) (edges : List (List Vec))
    (messages : List Vec) (hidden_nodes input_nodes : Nodes)
    (node_mask : List (List Bool)) :
    SummationMPNN.message_terms nodes node_neighbours edges
        = .error .notImplementedError ∧
    SummationMPNN.update nodes messages = .error .notImplementedError ∧
    SummationMPNN.readout hidden_nodes input_nodes node_mask
        = .error .notImplementedError :=
  ⟨rfl, rfl, rfl⟩

/-- C5: when the path does not name an existing file,
`count_molecules_in_smi_file` does not raise: it returns the fixed message
string; and `FileNotFoundError` is the only failure it handles — any other
error propagates out of the call. -/
theorem count_molecules_file_not_found (fs : FileSystem) (path : String) :
    (fs path = .notFound →
      count_molecules_in_smi_file fs path
        = .ok (.str "File not found. Please check the file path.")) ∧
    (∀ e, fs path = .ioError e →
      count_molecules_in_smi_file fs path = .error (.oserror e)) := by
  constructor
  · intro h
    unfold count_molecules_in_smi_file
    rw [h]
  · intro e h
    unfold count_molecules_in_smi_file
    rw [h]

/-- Witness for C5: a filesystem with no files yields the message string, and
one that raises a different error propagates it. -/
theorem count_molecules_file_not_found_witness :
    fsMissing "train.smi" = .notFound ∧ fsBroken "train.smi" = .ioError 13 ∧
    count_molecules_in_smi_file fsMissing "train.smi"
      = .ok (.str "File not found. Please check the file path.") ∧
    count_molecules_in_smi_file fsBroken "train.smi" = .error (.oserror 13) :=
  ⟨rfl, rfl, (count_molecules_file_not_found fsMissing "train.smi").1 rfl,
    (count_molecules_file_not_found fsBroken "train.smi").2 13 rfl⟩

/-- C6: on an existing readable file the function returns the number of lines,
`len(file.readlines())` — the newline count plus one for an unterminated final
line — and the filesystem comes back unchanged (the file is only read). -/
theorem count_molecules_counts_lines (fs : FileSystem) (path text : String)
    (h : fs path = .content text) :
    count_molecules_in_smi_file fs path = .ok (.int (readlines text).length) ∧
    (readlines text).length
      = text.toList.count '\n' + (if endsOpen [] text.toList then 1 else 0) ∧
    count_molecules_run fs path
      = (.ok (.int (readlines text).length), fs) := by
  refine ⟨?_, readlinesAux_length text.toList [], ?_⟩
  · unfold count_molecules_in_smi_file
    rw [h]
  · unfold count_molecules_run count_molecules_in_smi_file
    rw [h]

/-- Witness for C6 on a concrete two-molecule file. -/
theorem count_molecules_counts_lines_witness :
    fsTrain "train.smi" = .content "CCO\nCCN\n" ∧
    count_molecules_in_smi_file fsTrain "train.smi"
      = .ok (.int (readlines "CCO\nCCN\n").length) :=
  ⟨by decide,
    (count_molecules_counts_lines fsTrain "train.smi" "CCO\nCCN\n" (by decide)).1⟩

/-- C7: the forward pass keeps no persistent state on the module: the threaded
module state comes back unchanged, in particular the five attributes stored by
`__init__`. -/
theorem forward_no_persistent_state {γ : Type} (m : MPNNModule) (mt : MsgTerms)
    (upd : UpdateFn) (rd : ReadoutFn γ) (nodes : Nodes) (edges : Edges) :
    (SummationMPNN.forwardS m mt upd rd nodes edges).2 = m ∧
    (SummationMPNN.forwardS m mt upd rd nodes edges).2.hidden_node_features
      = m.hidden_node_features ∧
    (SummationMPNN.forwardS m mt upd rd nodes edges).2.edge_features
      = m.edge_features ∧
    (SummationMPNN.forwardS m mt upd rd nodes edges).2.message_size
      = m.message_size ∧
    (SummationMPNN.forwardS m mt upd rd nodes edges).2.message_passes
      = m.message_passes ∧
    (SummationMPNN.forwardS m mt upd rd nodes edges).2.constants = m.constants :=
  ⟨rfl, rfl, rfl, rfl, rfl, rfl⟩

/-! ### Counterexamples driven by negative or mismatched features -/

/-- C1 counterexample: `cexEdgesNeg` has a nonzero adjacency entry, but node 0
has two neighbours while its adjacency row sums to 1, so `max_node_degree` is
1 and the mapping loop indexes out of bounds: the conversion produces no
neighbour-indexed form at all. -/
theorem neighbor_conversion_fails_on_negative_feature :
    (((adjacency cexEdgesNeg).getD 0 []).getD 0 []).getD 1 0 = 2 ∧
    buildNodeBatch 1 1 cexNodes3 cexEdgesNeg = none := by decide

/-- C3 counterexample: in `cexEdgesMixed` node 0 has two neighbours (nonzero
degree) but an adjacency row sum of 0, so the rounds never replace its hidden
state even though `update` (here `+1` on every row it touches) changes all
rows it is applied to. -/
theorem round_skips_node_with_nonzero_degree :
    (nbrList (adjacency cexEdgesMixed) 0 0).length = 2 ∧
    ((rowSum (adjacency cexEdgesMixed)).getD 0 []).getD 0 0 = 0 ∧
    SummationMPNN.forward (SummationMPNN.init ⟨1, 1, 1, 1⟩) mtNghb updShift
      rdHidden cexNodes3 cexEdgesMixed = some [[[5], [7], [8]]] := by decide

/-- C9 counterexample: in `cexEdgesCancel` node 0 has two incident edges, yet
its adjacency row sums to 0, so the `node_mask` handed to `readout` is false
at a node with incident edges. -/
theorem node_mask_ignores_cancelled_edges :
    (nbrList (adjacency cexEdgesCancel) 0 0).length = 2 ∧
    SummationMPNN.forward (SummationMPNN.init ⟨1, 1, 1, 1⟩) mtNghb updShift
      rdMask cexNodes3 cexEdgesCancel = some [[false, false, false]] := by decide

/-- C10 counterexample: with node-feature width 1 and
`hidden_node_features = 2` the slice assignment broadcasts instead of failing,
and the construction produces an output despite the width mismatch. -/
theorem copy_broadcasts_width_one_feature :
    ((cexNodesW1.getD 0 []).getD 0 []).length = 1 ∧ (1 : Nat) ≠ 2 ∧
    buildNodeBatch 2 1 cexNodesW1 cexEdges11
      = some { selected := [(0, 0)], nghbs := [[[5, 5]]], edgesB := [[[1]]],
               mask := [[1]] } := by decide

/-- C10 (amended): for a rectangular input with some node of nonzero adjacency
row sum, if the node-feature width differs from `hidden_node_features` and
from 1 (which would broadcast), the neighbour-feature copy fails and `forward`
produces no output. -/
theorem copy_width_mismatch_fails (B N F H E : Nat) (nodes : Nodes)
    (edges : Edges) (hrect : RectInput B N F E nodes edges) (b v : Nat)
    (hb : b < B) (hv : v < N)
    (hsel : ((rowSum (adjacency edges)).getD b []).getD v 0 ≠ 0)
    (hF : F ≠ H) (hF1 : F ≠ 1) :
    buildNodeBatch H E nodes edges = none := by
  have helen : edges.length = B := hrect.2.2.1
  have hedlen : (edges.getD b []).length = N :=
    rect_edges_mat_len B N F E nodes edges hrect b hb
  have hadjb : b < (adjacency edges).length := by rw [adjacency_length]; omega
  have hadjrow : ((adjacency edges).getD b []).length = N := by
    rw [adjacency_row_length edges b (by omega)]; omega
  rw [buildNodeBatch_eq]
  by_cases h1 : ((rowSum (adjacency edges)).flatten).isEmpty
  · rw [if_pos h1]
  · rw [if_neg h1]
    by_cases h2 : listMax ((rowSum (adjacency edges)).flatten) < 0
    · rw [if_pos h2]
    · rw [if_neg h2]
      have hmem : (b, v) ∈ nonzero2 (rowSum (adjacency edges)) := by
        rw [nonzero2_mem]
        refine ⟨by rw [rowSum_length]; omega, ?_⟩
        rw [nzIdx_mem_zero]
        refine ⟨?_, ?_⟩
        · rw [rowSum_row_length _ b (by omega)]
          omega
        · exact hsel
      -- the adjacency row of (b, v) has a nonzero entry
      have hrs : ((rowSum (adjacency edges)).getD b []).getD v 0
          = vsum (((adjacency edges).getD b []).getD v []) :=
        rowSum_entry _ b v (by omega) (by omega)
      have hnz : nzIdx 0 (((adjacency edges).getD b []).getD v []) ≠ [] := by
        intro hnil
        have hall := (nzIdx_eq_nil _ 0).mp hnil
        exact hsel (by rw [hrs]; exact vsum_eq_zero _ hall)
      have hrow : buildRow H E (maxNodeDegree edges) nodes edges
          (nonzero3 (adjacency edges)) (b, v) = none := by
        rw [buildRow_eq]
        have hws : ((nonzero3 (adjacency edges)).filter
            (fun t => t.1 == (b, v).1 && t.2.1 == (b, v).2)).map (fun t => t.2.2)
            = nbrList (adjacency edges) b v :=
          nonzero3_filter_nbrList (adjacency edges) b v
        rw [hws]
        cases hnb : nbrList (adjacency edges) b v with
        | nil => exact absurd hnb hnz
        | cons w ws =>
          rw [fillSlots_cons]
          have hwslot : writeSlot (List.replicate (maxNodeDegree edges)
              (List.replicate H (0 : Int))) 0 ((nodes.getD (b, v).1 []).getD w [])
              = none := by
            unfold writeSlot
            by_cases hmd : 0 < (List.replicate (maxNodeDegree edges)
                (List.replicate H (0 : Int))).length
            · rw [if_pos hmd]
              have hdst : (List.replicate (maxNodeDegree edges)
                  (List.replicate H (0 : Int))).getD 0 []
                  = List.replicate H (0 : Int) := by
                apply listGetD_replicate
                rw [List.length_replicate] at hmd
                omega
              rw [hdst]
              have hwN : w < N := by
                have hmemw : w ∈ nzIdx 0 (((adjacency edges).getD b []).getD v []) := by
                  have hmw : w ∈ nbrList (adjacency edges) b v := by
                    rw [hnb]; simp
                  exact hmw
                have := (nzIdx_mem_zero _ w).mp hmemw
                have hlen := adjacency_entry_length edges b v (by omega) (by omega)
                rw [rect_edges_row_count B N F E nodes edges hrect b v hb hv] at hlen
                omega
              have hsrc : ((nodes.getD (b, v).1 []).getD w []).length = F :=
                rect_nodes_row_len B N F E nodes edges hrect b w hb hwN
              unfold copyRow
              rw [if_neg (by rw [hsrc, List.length_replicate]; exact hF),
                if_neg (by rw [hsrc]; exact hF1)]
            · rw [if_neg hmd]
          rw [hwslot, Option.none_bind]
      rw [optMapM_none_of_mem _ _ (b, v) hmem hrow]

/-- Witness for the amended C10 at width 3 against `hidden_node_features = 2`. -/
theorem copy_width_mismatch_fails_witness :
    RectInput 1 1 3 1 cexNodesW3 cexEdges11 ∧
    ((rowSum (adjacency cexEdges11)).getD 0 []).getD 0 0 ≠ 0 ∧
    buildNodeBatch 2 1 cexNodesW3 cexEdges11 = none :=
  ⟨by decide, by decide,
    copy_width_mismatch_fails 1 1 3 2 1 cexNodesW3 cexEdges11 (by decide) 0 0
      (by decide) (by decide) (by decide) (by decide) (by decide)⟩

/-! ### Inversion of a successful batch construction -/

theorem buildNodeBatch_inv (H E : Nat) (nodes : Nodes) (edges : Edges)
    (nb : NodeBatch) (h : buildNodeBatch H E nodes edges = some nb) :
    ∃ rows, optMapM (buildRow H E (maxNodeDegree edges) nodes edges
        (nonzero3 (adjacency edges))) (nonzero2 (rowSum (adjacency edges)))
        = some rows ∧
      nb = { selected := nonzero2 (rowSum (adjacency edges))
             nghbs := rows.map (fun r => r.1)
             edgesB := rows.map (fun r => r.2.1)
             mask := rows.map (fun r => r.2.2) } := by
  rw [buildNodeBatch_eq] at h
  by_cases h1 : ((rowSum (adjacency edges)).flatten).isEmpty
  · rw [if_pos h1] at h; cases h
  · rw [if_neg h1] at h
    by_cases h2 : listMax ((rowSum (adjacency edges)).flatten) < 0
    · rw [if_pos h2] at h; cases h
    · rw [if_neg h2] at h
      cases hrows : optMapM (buildRow H E (maxNodeDegree edges) nodes edges
          (nonzero3 (adjacency edges))) (nonzero2 (rowSum (adjacency edges))) with
      | none => rw [hrows] at h; cases h
      | some rows =>
        rw [hrows] at h
        injection h with h
        exact ⟨rows, rfl, h.symm⟩

/-- C8: whenever the mapping loop completes, `node_batch_node_nghb_mask[i, j]`
is 1 exactly when `j` is below the degree (neighbour count) of the `i`-th
selected node and 0 otherwise, and every selected node has degree at least
one. -/
theorem node_batch_mask_invariant (H E : Nat) (nodes : Nodes) (edges : Edges)
    (nb : NodeBatch) (h : buildNodeBatch H E nodes edges = some nb) :
    nb.selected = nonzero2 (rowSum (adjacency edges)) ∧
    ∀ i, i < nb.selected.length →
      1 ≤ (nbrList (adjacency edges) (nb.selected.getD i (0, 0)).1
          (nb.selected.getD i (0, 0)).2).length ∧
      (nb.mask.getD i []).length = maxNodeDegree edges ∧
      ∀ j, j < maxNodeDegree edges →
        (nb.mask.getD i []).getD j 0
          = if j < (nbrList (adjacency edges) (nb.selected.getD i (0, 0)).1
              (nb.selected.getD i (0, 0)).2).length then 1 else 0 := by
  obtain ⟨rows, hrows, hnb⟩ := buildNodeBatch_inv H E nodes edges nb h
  subst hnb
  refine ⟨rfl, ?_⟩
  intro i hi
  obtain ⟨hrlen, hridx⟩ := optMapM_eq_some _ _ rows hrows
  have hi' : i < rows.length := by
    simp only at hi
    omega
  set bv := (nonzero2 (rowSum (adjacency edges))).getD i (0, 0) with hbv
  have hbrow := hridx i (0, 0) ([], [], []) (by simpa using hi)
  rw [buildRow_eq, nonzero3_filter_nbrList (adjacency edges) bv.1 bv.2] at hbrow
  have hmaskrow : ((rows.map (fun r => r.2.2)).getD i []) = (rows.getD i ([], [], [])).2.2 :=
    listGetD_map (fun r => r.2.2) rows i ([], [], []) [] hi'
  -- membership facts for the selected pair
  have hmem : (bv.1, bv.2) ∈ nonzero2 (rowSum (adjacency edges)) := by
    rw [hbv]
    have := listGetD_mem (nonzero2 (rowSum (adjacency edges))) i (0, 0) (by simpa using hi)
    exact this
  obtain ⟨hbB, hvmem⟩ := (nonzero2_mem _ bv.1 bv.2).mp hmem
  obtain ⟨hvN, hentry⟩ := (nzIdx_mem_zero _ bv.2).mp hvmem
  have hadjB : bv.1 < (adjacency edges).length := by
    rw [rowSum_length] at hbB
    exact hbB
  have hadjrowlen : bv.2 < ((adjacency edges).getD bv.1 []).length := by
    rw [rowSum_row_length _ bv.1 hadjB] at hvN
    exact hvN
  have hdeg : 1 ≤ (nbrList (adjacency edges) bv.1 bv.2).length := by
    have hnz : nbrList (adjacency edges) bv.1 bv.2 ≠ [] := by
      intro hnil
      have hall := (nzIdx_eq_nil _ 0).mp hnil
      have hzero : ((rowSum (adjacency edges)).getD bv.1 []).getD bv.2 0 = 0 := by
        rw [rowSum_entry _ bv.1 bv.2 hadjB hadjrowlen]
        exact vsum_eq_zero _ hall
      exact hentry hzero
    cases hlist : nbrList (adjacency edges) bv.1 bv.2 with
    | nil => exact absurd hlist hnz
    | cons x xs => simp
  obtain ⟨hb0, hmlen, hout, hin⟩ := fillSlots_inv nodes edges bv.1 bv.2
    (nbrList (adjacency edges) bv.1 bv.2) 0 _ _ _
    (rows.getD i ([], [], [])).1 (rows.getD i ([], [], [])).2.1
    (rows.getD i ([], [], [])).2.2 hbrow
  refine ⟨hdeg, ?_, ?_⟩
  · rw [hmaskrow, hmlen, List.length_replicate]
  · intro j hj
    rw [hmaskrow]
    by_cases hjd : j < (nbrList (adjacency edges) bv.1 bv.2).length
    · rw [if_pos hjd]
      have := hin j hjd
      simpa using this
    · rw [if_neg hjd]
      have hpres := hout j (Or.inr (by omega))
      rw [hpres, listGetD_replicate _ j 0 0 hj]

/-- C9 (amended): the padding assignment makes the initial hidden states equal
the input nodes exactly; every node whose adjacency row sums to zero keeps its
input feature vector through all message-passing rounds; and the `node_mask`
handed to the single `readout` call is true exactly at nonzero adjacency row
sums. -/
theorem zero_rowsum_nodes_inert {γ : Type} (m : MPNNModule) (mt : MsgTerms)
    (upd : UpdateFn) (rd : ReadoutFn γ) (nodes : Nodes) (edges : Edges)
    (nb : NodeBatch)
    (hrows : ∀ mm ∈ nodes, mm.length = (nodes.headD []).length)
    (h : buildNodeBatch m.hidden_node_features m.edge_features nodes edges
        = some nb) :
    padHidden nodes = nodes ∧
    SummationMPNN.forward m mt upd rd nodes edges
      = some (rd (mpLoop m.message_size mt upd nb m.message_passes (padHidden nodes))
          nodes (nodeMask edges)) ∧
    (∀ b v, ((rowSum (adjacency edges)).getD b []).getD v 0 = 0 →
      ∀ k, ((mpLoop m.message_size mt upd nb k (padHidden nodes)).getD b []).getD v []
        = (nodes.getD b []).getD v []) ∧
    (∀ b v, b < edges.length → v < (edges.getD b []).length →
      ((nodeMask edges).getD b []).getD v false
        = decide (((rowSum (adjacency edges)).getD b []).getD v 0 ≠ 0)) := by
  have hpad : padHidden nodes = nodes := padHidden_eq_self nodes hrows
  obtain ⟨rows, hrowsEq, hnb⟩ := buildNodeBatch_inv _ _ nodes edges nb h
  refine ⟨hpad, ?_, ?_, ?_⟩
  · unfold SummationMPNN.forward
    rw [h]
  · intro b v hzero k
    have hnotmem : (b, v) ∉ nb.selected := by
      rw [hnb]
      intro hmem
      obtain ⟨hbB, hvmem⟩ := (nonzero2_mem _ b v).mp hmem
      obtain ⟨hvN, hentry⟩ := (nzIdx_mem_zero _ v).mp hvmem
      exact hentry hzero
    have hstep : ∀ hh : Nodes,
        ((mpStep m.message_size mt upd nb hh).getD b []).getD v []
          = ((hh.getD b []).getD v []) := by
      intro hh
      exact scatterRows_not_mem nb.selected hh _ b v
        (fun p hp hpe => hnotmem (hpe ▸ hp))
    have hloop : ∀ (k : Nat) (hh : Nodes),
        ((mpLoop m.message_size mt upd nb k hh).getD b []).getD v []
          = ((hh.getD b []).getD v []) := by
      intro k
      induction k with
      | zero => intro hh; rfl
      | succ n ih =>
        intro hh
        rw [show mpLoop m.message_size mt upd nb (n + 1) hh
            = mpLoop m.message_size mt upd nb n (mpStep m.message_size mt upd nb hh)
            from rfl, ih _, hstep hh]
    rw [hloop k (padHidden nodes), hpad]
  · intro b v hb hv
    have hb' : b < (rowSum (adjacency edges)).length := by
      rw [rowSum_length, adjacency_length]
      omega
    have hv' : v < ((rowSum (adjacency edges)).getD b []).length := by
      rw [rowSum_row_length _ b (by rw [adjacency_length]; omega),
        adjacency_row_length edges b (by omega)]
      omega
    unfold nodeMask
    rw [listGetD_map _ _ b [] [] (by rw [rowSum_length] at hb'; rw [rowSum_length]; exact hb'),
      listGetD_map _ _ v 0 false (by exact hv')]

/-- Witness for C8 on the two-node graph. -/
theorem node_batch_mask_invariant_witness :
    buildNodeBatch 1 1 wNodes wEdges = some wNB ∧
    wNB.selected = nonzero2 (rowSum (adjacency wEdges)) :=
  ⟨by decide, (node_batch_mask_invariant 1 1 wNodes wEdges wNB (by decide)).1⟩

/-- Witness for C9 on the two-node graph. -/
theorem zero_rowsum_nodes_inert_witness :
    (∀ mm ∈ wNodes, mm.length = (wNodes.headD []).length) ∧
    buildNodeBatch 1 1 wNodes wEdges = some wNB ∧
    padHidden wNodes = wNodes :=
  ⟨by decide, by decide,
    (zero_rowsum_nodes_inert (SummationMPNN.init ⟨1, 1, 1, 2⟩) mtNghb updShift
      rdHidden wNodes wEdges wNB (by decide) (by decide)).1⟩

/-- C2: each round's messages factor through the class's message-passing
contract: `forward` aggregates through `aggregate_message`, whose rows are
the mask-weighted sums of the `message_terms` hook's outputs, and the result
feeds `update` and finally the single `readout` call. -/
theorem forward_message_terms_contract {γ : Type} (m : MPNNModule)
    (mt : MsgTerms) (upd : UpdateFn) (rd : ReadoutFn γ) (nodes : Nodes)
    (edges : Edges) (nb : NodeBatch)
    (h : buildNodeBatch m.hidden_node_features m.edge_features nodes edges
        = some nb) :
    SummationMPNN.forward m mt upd rd nodes edges
      = some (rd (mpLoop m.message_size mt upd nb m.message_passes
          (padHidden nodes)) nodes (nodeMask edges)) ∧
    (∀ hidden, mpStep m.message_size mt upd nb hidden
        = scatterRows hidden nb.selected
            (upd (gatherRows hidden nb.selected)
              (aggregate_message m.message_size mt (gatherRows hidden nb.selected)
                nb.nghbs nb.edgesB nb.mask))) ∧
    (∀ (g : List Vec) (nn eB : List (List Vec)) (mask : List (List Int)) (i k : Nat),
      i < (mt g nn eB).length → i < mask.length →
      (∀ t ∈ (mt g nn eB).getD i [], t.length = m.message_size) →
      ((aggregate_message m.message_size mt g nn eB mask).getD i []).getD k 0
        = ((((mt g nn eB).getD i []).zip (mask.getD i [])).map
            (fun p => p.2 * (p.1.getD k 0))).sum) := by
  refine ⟨?_, fun hidden => rfl, ?_⟩
  · unfold SummationMPNN.forward
    rw [h]
  · intro g nn eB mask i k hi hi' hlen
    rw [aggregate_message_getD m.message_size mt g nn eB mask i hi hi',
      maskedSum_getD m.message_size _ _ hlen k]

/-- Witness for C2 on the two-node graph with concrete hooks. -/
theorem forward_message_terms_contract_witness :
    buildNodeBatch 1 1 wNodes wEdges = some wNB ∧
    SummationMPNN.forward (SummationMPNN.init ⟨1, 1, 1, 2⟩) mtNghb updShift
        rdHidden wNodes wEdges
      = some (rdHidden (mpLoop 1 mtNghb updShift wNB 2 (padHidden wNodes))
          wNodes (nodeMask wEdges)) :=
  ⟨by decide,
    (forward_message_terms_contract (SummationMPNN.init ⟨1, 1, 1, 2⟩) mtNghb
      updShift rdHidden wNodes wEdges wNB (by decide)).1⟩

/-- C3 (amended): `forward` performs exactly `message_passes` rounds (the
value copied from `constants.message_passes` at construction) before the
single `readout` call, and each round replaces the hidden states of exactly
the nodes whose adjacency row sum is nonzero — the selected node batch — with
`update` applied to their current hidden states and the aggregated messages. -/
theorem forward_round_structure {γ : Type} (c : Constants) (mt : MsgTerms)
    (upd : UpdateFn) (rd : ReadoutFn γ) (nodes : Nodes) (edges : Edges)
    (nb : NodeBatch)
    (h : buildNodeBatch (SummationMPNN.init c).hidden_node_features
        (SummationMPNN.init c).edge_features nodes edges = some nb) :
    (SummationMPNN.init c).message_passes = c.message_passes ∧
    (∀ (k : Nat) (hidden : Nodes),
      mpLoop (SummationMPNN.init c).message_size mt upd nb k hidden
        = (mpStep (SummationMPNN.init c).message_size mt upd nb)^[k] hidden) ∧
    SummationMPNN.forward (SummationMPNN.init c) mt upd rd nodes edges
      = some (rd ((mpStep (SummationMPNN.init c).message_size mt upd nb)^[c.message_passes]
          (padHidden nodes)) nodes (nodeMask edges)) ∧
    (∀ b v, (b, v) ∈ nb.selected ↔
      (b < (rowSum (adjacency edges)).length ∧
        v < ((rowSum (adjacency edges)).getD b []).length ∧
        ((rowSum (adjacency edges)).getD b []).getD v 0 ≠ 0)) ∧
    (∀ (hidden : Nodes) (b v : Nat), (b, v) ∉ nb.selected →
      ((mpStep (SummationMPNN.init c).message_size mt upd nb hidden).getD b []).getD v []
        = (hidden.getD b []).getD v []) ∧
    (∀ (hidden : Nodes) (i b v : Nat),
      (upd (gatherRows hidden nb.selected)
          (aggregate_message (SummationMPNN.init c).message_size mt
            (gatherRows hidden nb.selected) nb.nghbs nb.edgesB nb.mask)).length
        = nb.selected.length →
      i < nb.selected.length → nb.selected.getD i (0, 0) = (b, v) →
      b < hidden.length → v < (hidden.getD b []).length →
      ((mpStep (SummationMPNN.init c).message_size mt upd nb hidden).getD b []).getD v []
        = (upd (gatherRows hidden nb.selected)
            (aggregate_message (SummationMPNN.init c).message_size mt
              (gatherRows hidden nb.selected) nb.nghbs nb.edgesB nb.mask)).getD i []) := by
  obtain ⟨rows, hrowsEq, hnb⟩ := buildNodeBatch_inv _ _ nodes edges nb h
  have hsel : nb.selected = nonzero2 (rowSum (adjacency edges)) := by rw [hnb]
  have hnd : nb.selected.Nodup := by
    rw [hsel]
    exact nonzero2_nodup _
  refine ⟨rfl, mpLoop_eq_iterate _ mt upd nb, ?_, ?_, ?_, ?_⟩
  · unfold SummationMPNN.forward
    rw [h]
    show some (rd (mpLoop (SummationMPNN.init c).message_size mt upd nb
        (SummationMPNN.init c).message_passes (padHidden nodes)) nodes
        (nodeMask edges)) = _
    rw [mpLoop_eq_iterate]
    rfl
  · intro b v
    rw [hsel, nonzero2_mem, nzIdx_mem_zero]
  · intro hidden b v hnot
    exact scatterRows_not_mem nb.selected hidden _ b v
      (fun p hp hpe => hnot (hpe ▸ hp))
  · intro hidden i b v hlen hi hgd hb hv
    exact scatterRows_write nb.selected hidden _ i b v hnd hi (by omega) hgd hb hv

/-- Witness for the amended C3 on the two-node graph. -/
theorem forward_round_structure_witness :
    buildNodeBatch 1 1 wNodes wEdges = some wNB ∧
    (SummationMPNN.init ⟨1, 1, 1, 2⟩).message_passes = 2 ∧
    ((0, 0) ∈ wNB.selected ↔
      (0 < (rowSum (adjacency wEdges)).length ∧
        0 < ((rowSum (adjacency wEdges)).getD 0 []).length ∧
        ((rowSum (adjacency wEdges)).getD 0 []).getD 0 0 ≠ 0)) :=
  ⟨by decide,
    (forward_round_structure ⟨1, 1, 1, 2⟩ mtNghb updShift rdHidden wNodes wEdges
      wNB (by decide)).1,
    (forward_round_structure ⟨1, 1, 1, 2⟩ mtNghb updShift rdHidden wNodes wEdges
      wNB (by decide)).2.2.2.1 0 0⟩

/-! ### Nonnegative edge features: degree bounds -/

theorem adj_row_nonneg (edges : Edges) (hnn : NonnegEdges edges) (b v : Nat)
    (hb : b < edges.length) (hv : v < (edges.getD b []).length) :
    ∀ x ∈ ((adjacency edges).getD b []).getD v [], (0 : Int) ≤ x := by
  intro x hx
  rw [adjacency_row_getD edges b v hb hv] at hx
  rcases List.mem_map.mp hx with ⟨evec, hevec, hveq⟩
  rw [← hveq]
  apply vsum_nonneg
  intro y hy
  exact hnn _ (listGetD_mem edges b [] hb) _ (listGetD_mem _ v [] hv) evec hevec y hy

theorem degs_nonneg (edges : Edges) (hnn : NonnegEdges edges) :
    ∀ x ∈ (rowSum (adjacency edges)).flatten, (0 : Int) ≤ x := by
  intro x hx
  rcases List.mem_flatten.mp hx with ⟨row, hrow, hxrow⟩
  rcases List.mem_map.mp hrow with ⟨mm, hmm, hmmeq⟩
  rw [← hmmeq] at hxrow
  rcases List.mem_map.mp hxrow with ⟨arow, harow, haroweq⟩
  rw [← haroweq]
  apply vsum_nonneg
  intro y hy
  rcases List.mem_map.mp hmm with ⟨t, ht, hteq⟩
  rw [← hteq] at harow
  rcases List.mem_map.mp harow with ⟨p, hp, hpeq⟩
  rw [← hpeq] at hy
  rcases List.mem_map.mp hy with ⟨e, he, heeq⟩
  rw [← heeq]
  apply vsum_nonneg
  intro z hz
  exact hnn t ht p hp e he z hz

theorem nbr_count_le_max (edges : Edges) (hnn : NonnegEdges edges) (b v : Nat)
    (hb : b < edges.length) (hv : v < (edges.getD b []).length) :
    (nbrList (adjacency edges) b v).length ≤ maxNodeDegree edges := by
  have hrow_nonneg := adj_row_nonneg edges hnn b v hb hv
  have h1 : ((nbrList (adjacency edges) b v).length : Int)
      ≤ vsum (((adjacency edges).getD b []).getD v []) :=
    nzIdx_length_le_vsum _ hrow_nonneg 0
  have hadjb : b < (adjacency edges).length := by rw [adjacency_length]; omega
  have hadjv : v < ((adjacency edges).getD b []).length := by
    rw [adjacency_row_length edges b hb]; omega
  have hmem : vsum (((adjacency edges).getD b []).getD v [])
      ∈ (rowSum (adjacency edges)).flatten := by
    apply List.mem_flatten.mpr
    refine ⟨(rowSum (adjacency edges)).getD b [], listGetD_mem _ b []
      (by rw [rowSum_length]; omega), ?_⟩
    rw [rowSum_getD _ b hadjb]
    apply List.mem_map.mpr
    exact ⟨((adjacency edges).getD b []).getD v [], listGetD_mem _ v [] hadjv, rfl⟩
  have h2 := le_listMax _ _ hmem
  have h0 : (0 : Int) ≤ vsum (((adjacency edges).getD b []).getD v []) :=
    vsum_nonneg _ hrow_nonneg
  have hmax0 : (0 : Int) ≤ listMax ((rowSum (adjacency edges)).flatten) :=
    le_trans h0 h2
  exact (Int.le_toNat hmax0).mpr (le_trans h1 h2)

theorem buildRow_success (B N H E : Nat) (nodes : Nodes) (edges : Edges)
    (hrect : RectInput B N H E nodes edges) (hnn : NonnegEdges edges)
    (bv : Nat × Nat) (hmem : bv ∈ nonzero2 (rowSum (adjacency edges))) :
    ∃ nr er mr,
      buildRow H E (maxNodeDegree edges) nodes edges (nonzero3 (adjacency edges)) bv
        = some (nr, er, mr) ∧
      nr.length = maxNodeDegree edges ∧ er.length = maxNodeDegree edges ∧
      (∀ j, j < (nbrList (adjacency edges) bv.1 bv.2).length →
        nr.getD j [] = (nodes.getD bv.1 []).getD
            ((nbrList (adjacency edges) bv.1 bv.2).getD j 0) [] ∧
        er.getD j [] = ((edges.getD bv.1 []).getD bv.2 []).getD
            ((nbrList (adjacency edges) bv.1 bv.2).getD j 0) []) ∧
      (∀ j, (nbrList (adjacency edges) bv.1 bv.2).length ≤ j →
        j < maxNodeDegree edges →
        nr.getD j [] = List.replicate H (0 : Int) ∧
        er.getD j [] = List.replicate E (0 : Int)) := by
  have hedgeslen : edges.length = B := hrect.2.2.1
  obtain ⟨hbB', hvmem⟩ := (nonzero2_mem _ bv.1 bv.2).mp hmem
  have hbB : bv.1 < B := by
    rw [rowSum_length, adjacency_length, hedgeslen] at hbB'
    exact hbB'
  have hadjb : bv.1 < (adjacency edges).length := by rw [adjacency_length]; omega
  have hedgerow : (edges.getD bv.1 []).length = N :=
    rect_edges_mat_len B N H E nodes edges hrect bv.1 hbB
  obtain ⟨hvlen, hventry⟩ := (nzIdx_mem_zero _ bv.2).mp hvmem
  have hvN : bv.2 < N := by
    rw [rowSum_row_length _ bv.1 hadjb, adjacency_row_length edges bv.1 (by omega),
      hedgerow] at hvlen
    exact hvlen
  have hadjv : bv.2 < ((adjacency edges).getD bv.1 []).length := by
    rw [adjacency_row_length edges bv.1 (by omega)]
    omega
  have hcount : (nbrList (adjacency edges) bv.1 bv.2).length ≤ maxNodeDegree edges :=
    nbr_count_le_max edges hnn bv.1 bv.2 (by omega) (by omega)
  have hadjrowlen : (((adjacency edges).getD bv.1 []).getD bv.2 []).length = N := by
    rw [adjacency_entry_length edges bv.1 bv.2 (by omega) (by omega),
      rect_edges_row_count B N H E nodes edges hrect bv.1 bv.2 hbB hvN]
  have hwsN : ∀ k, k < (nbrList (adjacency edges) bv.1 bv.2).length →
      (nbrList (adjacency edges) bv.1 bv.2).getD k 0 < N := by
    intro k hk
    have hmemw := listGetD_mem (nbrList (adjacency edges) bv.1 bv.2) k 0 hk
    obtain ⟨hlt, _⟩ := (nzIdx_mem_zero _ _).mp hmemw
    rw [hadjrowlen] at hlt
    exact hlt
  obtain ⟨nr, er, mr, heq, hl1, hl2, hl3, hout, hin⟩ :=
    fillSlots_sound nodes edges bv.1 bv.2 (nbrList (adjacency edges) bv.1 bv.2) 0
      (List.replicate (maxNodeDegree edges) (List.replicate H (0 : Int)))
      (List.replicate (maxNodeDegree edges) (List.replicate E (0 : Int)))
      (List.replicate (maxNodeDegree edges) (0 : Int))
      (by rw [List.length_replicate]; omega)
      (by rw [List.length_replicate, List.length_replicate])
      (by rw [List.length_replicate, List.length_replicate])
      (fun k hk => by
        have hk' : k < maxNodeDegree edges := by omega
        rw [Nat.zero_add, listGetD_replicate _ k _ [] hk', List.length_replicate,
          rect_nodes_row_len B N H E nodes edges hrect bv.1 _ hbB (hwsN k hk)])
      (fun k hk => by
        have hk' : k < maxNodeDegree edges := by omega
        rw [Nat.zero_add, listGetD_replicate _ k _ [] hk', List.length_replicate,
          rect_edges_vec_len B N H E nodes edges hrect bv.1 bv.2 _ hbB hvN
            (hwsN k hk)])
  refine ⟨nr, er, mr, ?_, by rw [hl1, List.length_replicate],
    by rw [hl2, List.length_replicate], ?_, ?_⟩
  · rw [buildRow_eq, nonzero3_filter_nbrList]
    exact heq
  · intro j hj
    have hfill := hin j hj
    rw [Nat.zero_add] at hfill
    exact ⟨hfill.1, hfill.2.1⟩
  · intro j hj1 hj2
    have hpres := hout j (Or.inr (by omega))
    exact ⟨by rw [hpres.1, listGetD_replicate _ j _ [] hj2],
      by rw [hpres.2.1, listGetD_replicate _ j _ [] hj2]⟩

/-- C1 (amended): for every rectangular batch with nonnegative edge features,
node-feature width equal to `hidden_node_features`, and a nonzero derived
adjacency entry, the forward pass's conversion succeeds and produces the
neighbour-indexed form: exactly the nodes with at least one incident edge are
selected, neighbours are enumerated in ascending index order, row `j` of a
node's neighbour buffer holds its `j`-th neighbour's feature vector and the
edge buffer the corresponding edge features, and all rows at or beyond the
node's degree up to the allocated width are zero. -/
theorem forward_neighbor_indexing (B N H E : Nat) (nodes : Nodes) (edges : Edges)
    (hrect : RectInput B N H E nodes edges) (hnn : NonnegEdges edges)
    (b0 v0 w0 : Nat) (hb0 : b0 < B) (hv0 : v0 < N) (hw0 : w0 < N)
    (hnz0 : (((adjacency edges).getD b0 []).getD v0 []).getD w0 0 ≠ 0) :
    ∃ nb, buildNodeBatch H E nodes edges = some nb ∧
      nb.selected = nonzero2 (rowSum (adjacency edges)) ∧
      (∀ b v, b < B → v < N →
        (nbrList (adjacency edges) b v ≠ [] ↔ (b, v) ∈ nb.selected)) ∧
      (∀ b v w, w ∈ nbrList (adjacency edges) b v ↔
        (w < (((adjacency edges).getD b []).getD v []).length ∧
          (((adjacency edges).getD b []).getD v []).getD w 0 ≠ 0)) ∧
      (∀ b v, List.Pairwise (· < ·) (nbrList (adjacency edges) b v)) ∧
      (∀ i, i < nb.selected.length →
        (nb.nghbs.getD i []).length = maxNodeDegree edges ∧
        (nb.edgesB.getD i []).length = maxNodeDegree edges ∧
        (∀ j, j < (nbrList (adjacency edges) (nb.selected.getD i (0, 0)).1
            (nb.selected.getD i (0, 0)).2).length →
          (nb.nghbs.getD i []).getD j []
            = (nodes.getD (nb.selected.getD i (0, 0)).1 []).getD
                ((nbrList (adjacency edges) (nb.selected.getD i (0, 0)).1
                  (nb.selected.getD i (0, 0)).2).getD j 0) [] ∧
          (nb.edgesB.getD i []).getD j []
            = ((edges.getD (nb.selected.getD i (0, 0)).1 []).getD
                  (nb.selected.getD i (0, 0)).2 []).getD
                ((nbrList (adjacency edges) (nb.selected.getD i (0, 0)).1
                  (nb.selected.getD i (0, 0)).2).getD j 0) []) ∧
        (∀ j, (nbrList (adjacency edges) (nb.selected.getD i (0, 0)).1
            (nb.selected.getD i (0, 0)).2).length ≤ j → j < maxNodeDegree edges →
          (nb.nghbs.getD i []).getD j [] = List.replicate H (0 : Int) ∧
          (nb.edgesB.getD i []).getD j [] = List.replicate E (0 : Int))) := by
  have hedgeslen : edges.length = B := hrect.2.2.1
  have hadjlen : (adjacency edges).length = B := by
    rw [adjacency_length, hedgeslen]
  have hrslen : (rowSum (adjacency edges)).length = B := by
    rw [rowSum_length, hadjlen]
  have hrow0len : ((rowSum (adjacency edges)).getD b0 []).length = N := by
    rw [rowSum_row_length _ b0 (by omega),
      adjacency_row_length edges b0 (by omega),
      rect_edges_mat_len B N H E nodes edges hrect b0 hb0]
  have hdegmem : ((rowSum (adjacency edges)).getD b0 []).getD v0 0
      ∈ (rowSum (adjacency edges)).flatten := by
    apply List.mem_flatten.mpr
    exact ⟨_, listGetD_mem _ b0 [] (by omega), listGetD_mem _ v0 0 (by omega)⟩
  have hne : ¬ ((rowSum (adjacency edges)).flatten).isEmpty = true := by
    intro hemp
    rw [List.isEmpty_iff] at hemp
    rw [hemp] at hdegmem
    simp at hdegmem
  have hmaxnn : ¬ listMax ((rowSum (adjacency edges)).flatten) < 0 := by
    have h0 := degs_nonneg edges hnn _ hdegmem
    have h2 := le_listMax _ _ hdegmem
    omega
  have hsucc : ∀ a ∈ nonzero2 (rowSum (adjacency edges)),
      (buildRow H E (maxNodeDegree edges) nodes edges
        (nonzero3 (adjacency edges)) a).isSome = true := by
    intro a ha
    obtain ⟨nr, er, mr, heq, _⟩ := buildRow_success B N H E nodes edges hrect hnn a ha
    rw [heq]
    rfl
  obtain ⟨rows, hrows, hrowlen, hrowidx⟩ := optMapM_some _ _ hsucc
  refine ⟨{ selected := nonzero2 (rowSum (adjacency edges))
            nghbs := rows.map (fun r => r.1)
            edgesB := rows.map (fun r => r.2.1)
            mask := rows.map (fun r => r.2.2) }, ?_, rfl, ?_, ?_, ?_, ?_⟩
  · rw [buildNodeBatch_eq, if_neg hne, if_neg hmaxnn, hrows]
  · intro b v hb hv
    have hbe : b < edges.length := by omega
    have hedgerow : (edges.getD b []).length = N :=
      rect_edges_mat_len B N H E nodes edges hrect b hb
    have hadjb : b < (adjacency edges).length := by omega
    have hadjv : v < ((adjacency edges).getD b []).length := by
      rw [adjacency_row_length edges b hbe, hedgerow]
      omega
    have hnonneg := adj_row_nonneg edges hnn b v hbe (by omega)
    constructor
    · intro hlist
      show (b, v) ∈ nonzero2 (rowSum (adjacency edges))
      rw [nonzero2_mem]
      refine ⟨by omega, ?_⟩
      rw [nzIdx_mem_zero]
      refine ⟨by rw [rowSum_row_length _ b hadjb]; omega, ?_⟩
      rw [rowSum_entry _ b v hadjb hadjv]
      cases hl : nbrList (adjacency edges) b v with
      | nil => exact absurd hl hlist
      | cons w ws' =>
        have hw : w ∈ nbrList (adjacency edges) b v := by rw [hl]; simp
        obtain ⟨hwlen, hwnz⟩ := (nzIdx_mem_zero _ w).mp hw
        have hx := listGetD_mem (((adjacency edges).getD b []).getD v []) w 0 hwlen
        have hge := mem_le_vsum _ _ hx hnonneg
        have h1 : (1 : Int) ≤ (((adjacency edges).getD b []).getD v []).getD w 0 := by
          have := hnonneg _ hx
          omega
        omega
    · intro hmem2 hnil
      have hmem3 : (b, v) ∈ nonzero2 (rowSum (adjacency edges)) := hmem2
      obtain ⟨_, hvmem⟩ := (nonzero2_mem _ b v).mp hmem3
      obtain ⟨_, hentry⟩ := (nzIdx_mem_zero _ v).mp hvmem
      rw [rowSum_entry _ b v hadjb hadjv] at hentry
      exact hentry (vsum_eq_zero _ ((nzIdx_eq_nil _ 0).mp hnil))
  · intro b v w
    exact nzIdx_mem_zero _ w
  · intro b v
    exact nzIdx_pairwise _ 0
  · intro i hi
    have hi' : i < (nonzero2 (rowSum (adjacency edges))).length := hi
    have hirows : i < rows.length := by omega
    have hbr := hrowidx i (0, 0) ([], [], []) hi'
    set bv := (nonzero2 (rowSum (adjacency edges))).getD i (0, 0) with hbv
    have hmem : bv ∈ nonzero2 (rowSum (adjacency edges)) := by
      rw [hbv]
      exact listGetD_mem _ i (0, 0) hi'
    obtain ⟨nr, er, mr, heq, hlen1, hlen2, hfill, hzero⟩ :=
      buildRow_success B N H E nodes edges hrect hnn bv hmem
    have hid : rows.getD i ([], [], []) = (nr, er, mr) := by
      have hq := hbr.symm.trans heq
      injection hq
    have hn : ((rows.map (fun r => r.1)).getD i []) = nr := by
      rw [listGetD_map (fun r => r.1) rows i ([], [], []) [] hirows, hid]
    have he : ((rows.map (fun r => r.2.1)).getD i []) = er := by
      rw [listGetD_map (fun r => r.2.1) rows i ([], [], []) [] hirows, hid]
    refine ⟨?_, ?_, ?_, ?_⟩
    · show ((rows.map (fun r => r.1)).getD i []).length = maxNodeDegree edges
      rw [hn, hlen1]
    · show ((rows.map (fun r => r.2.1)).getD i []).length = maxNodeDegree edges
      rw [he, hlen2]
    · intro j hj
      have hj' : j < (nbrList (adjacency edges) bv.1 bv.2).length := hj
      have hf := hfill j hj'
      constructor
      · show ((rows.map (fun r => r.1)).getD i []).getD j []
            = (nodes.getD bv.1 []).getD
                ((nbrList (adjacency edges) bv.1 bv.2).getD j 0) []
        rw [hn]
        exact hf.1
      · show ((rows.map (fun r => r.2.1)).getD i []).getD j []
            = ((edges.getD bv.1 []).getD bv.2 []).getD
                ((nbrList (adjacency edges) bv.1 bv.2).getD j 0) []
        rw [he]
        exact hf.2
    · intro j hj1 hj2
      have hj1' : (nbrList (adjacency edges) bv.1 bv.2).length ≤ j := hj1
      have hz := hzero j hj1' hj2
      constructor
      · show ((rows.map (fun r => r.1)).getD i []).getD j []
            = List.replicate H (0 : Int)
        rw [hn]
        exact hz.1
      · show ((rows.map (fun r => r.2.1)).getD i []).getD j []
            = List.replicate E (0 : Int)
        rw [he]
        exact hz.2

/-- Witness for the amended C1 on the two-node graph. -/
theorem forward_neighbor_indexing_witness :
    RectInput 1 2 1 1 wNodes wEdges ∧ NonnegEdges wEdges ∧
    (((adjacency wEdges).getD 0 []).getD 0 []).getD 1 0 ≠ 0 ∧
    ∃ nb, buildNodeBatch 1 1 wNodes wEdges = some nb ∧
      nb.selected = nonzero2 (rowSum (adjacency wEdges)) := by
  refine ⟨by decide, by decide, by decide, ?_⟩
  obtain ⟨nb, h1, h2, _⟩ := forward_neighbor_indexing 1 2 1 1 wNodes wEdges
    (by decide) (by decide) 0 0 1 (by decide) (by decide) (by decide) (by decide)
  exact ⟨nb, h1, h2⟩
